import Mathlib

/-!
# itertools: a shallow embedding of the sequence combinators

The Go package `itertools` (file `itertools.go`) offers eight functions over
push iterators (`iter.Seq[T] = func(yield func(T) bool)`).  This file embeds
them in Lean and proves the properties of the specification against the
embedding.

## Modelling conventions

* A slice is a `List T`; `nil` and the empty slice are both `[]`.
* The consumer of a sequence lives in a world of some type `σ`.  The `yield`
  function handed to a sequence is a state transformer
  `T → σ → Bool × σ`: it receives the element and the current world and
  returns Go's boolean answer (`true` = continue, `false` = stop) together
  with the new world.
* An `iter.Seq[T]` is a function that, for every world type, takes `yield`
  and the world in which the drive starts and gives the `Outcome` of the
  drive: the world in which the call ended, and whether it ended by an
  ordinary return or by a run-time panic.
* Functions supplied by the caller (`filterFn`, `mapFn`, `fn`) are Go
  functions and may act on the caller's world; a function without side effects
  is the special case `pureFn`.
* `int` counters that count slice positions or delivered elements are natural
  numbers; no run reaches `2 ^ 63` of them.
* The backing storage of the slice given to `Shuffle` is part of the state: a
  drive takes its content and returns its new content, and so does the call of
  `Shuffle` itself (`Shuffle.call`), which returns the sequence beside the
  content it leaves.  The standard library's
  `rand.Shuffle` is a parameter: the index pairs it passes to the swap function.
* Indexing (`seq[i]`) is checked as in Go; an index out of range is a panic.
* Which calls the caller's functions receive is read from logs: `Traced` adds
  to the caller's world the arguments of the calls of `filterFn` or `mapFn` and
  the elements handed to `yield` with its answers.
* The Fisher-Yates schedule of `rand.Shuffle` is `fisherYates`; a choice vector
  (`Choices n`) fixes every draw.
* Iterator functions that need not terminate are machines (`Source`); a drive
  over them is bounded by a number of steps (`ConcatIterF`) and is either
  finished or still running when the steps are used up.
-/

namespace Itertools

/-! ## The data model -/

/-- How a call ended, with the consumer's world at that moment. -/
inductive Outcome (σ : Type) where
  /-- The call returned. -/
  | returned (s : σ) : Outcome σ
  /-- The call was aborted by a run-time panic. -/
  | panicked (s : σ) : Outcome σ
  deriving DecidableEq

/-- The consumer's world at the end of the call. -/
def Outcome.state {σ : Type} : Outcome σ → σ
  | .returned s => s
  | .panicked s => s

/-- Go's `func(T) bool` handed to a sequence, as a transformer of the
consumer's world. -/
abbrev Yield (σ T : Type) : Type := T → σ → Bool × σ

/-- Go's `iter.Seq[T]`. -/
def Seq (T : Type) : Type 1 := (σ : Type) → Yield σ T → σ → Outcome σ

/-- The loop `for _, v := range seq { if !yield(v) { return } }` over a slice.
The boolean of the result is `false` when the `return` was taken and `true`
when the loop ran off the end of the slice. -/
def rangeSlice {σ T : Type} (yield : Yield σ T) : List T → σ → Bool × σ
  | [], s => (true, s)
  | v :: rest, s =>
    match yield v s with
    | (true, s') => rangeSlice yield rest s'
    | (false, s') => (false, s')

/-- The outer loop of `Concat`: `for _, seq := range seqs { ... }`, whose body
is the inner loop `rangeSlice`; the `return` of the inner loop leaves both. -/
def Concat.loop {σ T : Type} (yield : Yield σ T) : List (List T) → σ → σ
  | [], s => s
  | seq :: rest, s =>
    match rangeSlice yield seq s with
    | (true, s') => Concat.loop yield rest s'
    | (false, s') => s'

/-- The function `Concat` of `itertools.go`. -/
def Concat {T : Type} (seqs : List (List T)) : Seq T :=
  fun _ yield s => .returned (Concat.loop yield seqs s)

/-- The standard library's `slices.Values`: the sequence of the elements of
a slice, in index order, which returns as soon as `yield` answers `false`. -/
def Values {T : Type} (s : List T) : Seq T :=
  fun _ yield w => .returned (rangeSlice yield s w).2

/-- The state that the Go compiler keeps for one `for ... range f` loop over
an iterator function `f`. -/
inductive RangeState where
  /-- The loop body may be entered. -/
  | ready : RangeState
  /-- The loop body has left the loop (here always by `return`). -/
  | done : RangeState
  /-- The iterator called the body again after the body had left the loop;
  the Go run time answers this with a panic. -/
  | misused : RangeState
  deriving DecidableEq

/-- The body `if !yield(v) { return }` of a loop over an iterator function, as
the function that the compiler hands to the iterator.  A call made after the
body has left the loop does not reach `yield`. -/
def rangeBody {σ T : Type} (yield : Yield σ T) : Yield (σ × RangeState) T :=
  fun v w =>
    match w with
    | (s, .ready) =>
      match yield v s with
      | (true, s') => (true, (s', .ready))
      | (false, s') => (false, (s', .done))
    | (s, _) => (false, (s, .misused))

/-- Where control is after a loop: behind the loop, at a `return` taken inside
it, or in a panic. -/
inductive Flow (σ : Type) where
  /-- The loop ended; the statement after it is next. -/
  | next (s : σ) : Flow σ
  /-- The loop body executed `return`. -/
  | ret (s : σ) : Flow σ
  /-- A run-time panic was raised. -/
  | panic (s : σ) : Flow σ
  deriving DecidableEq

/-- The loop `for v := range seq { if !yield(v) { return } }` over an iterator
function `seq`. -/
def rangeFunc {σ T : Type} (seq : Seq T) (yield : Yield σ T) (s : σ) : Flow σ :=
  match seq (σ × RangeState) (rangeBody yield) (s, .ready) with
  | .returned (s', .ready) => .next s'
  | .returned (s', .done) => .ret s'
  | .returned (s', .misused) => .panic s'
  | .panicked (s', _) => .panic s'

/-- The outer loop of `ConcatIter`: `for _, seq := range seqs { ... }`, whose
body is the loop `rangeFunc` over the source `seq`. -/
def ConcatIter.loop {σ T : Type} (yield : Yield σ T) : List (Seq T) → σ → Outcome σ
  | [], s => .returned s
  | seq :: rest, s =>
    match rangeFunc seq yield s with
    | .next s' => ConcatIter.loop yield rest s'
    | .ret s' => .returned s'
    | .panic s' => .panicked s'

/-- The function `ConcatIter` of `itertools.go`. -/
def ConcatIter {T : Type} (seqs : List (Seq T)) : Seq T :=
  fun _ yield s => ConcatIter.loop yield seqs s

/-- The inner loop of `Reverse`,
`for j := len(seq) - 1; j >= 0; j-- { if !yield(seq[j]) { return } }`.
The natural number argument is `j + 1`: it is `0` exactly when the test
`j >= 0` fails.  The access `seq[j]` is checked, as in Go. -/
def Reverse.inner {σ T : Type} (yield : Yield σ T) (seq : List T) : Nat → σ → Flow σ
  | 0, s => .next s
  | j + 1, s =>
    match seq[j]? with
    | none => .panic s
    | some v =>
      match yield v s with
      | (true, s') => Reverse.inner yield seq j s'
      | (false, s') => .ret s'

/-- The outer loop of `Reverse`, `for i := len(seqs) - 1; i >= 0; i-- { ... }`,
with the natural number argument `i + 1` and the checked access `seqs[i]`. -/
def Reverse.outer {σ T : Type} (yield : Yield σ T) (seqs : List (List T)) :
    Nat → σ → Outcome σ
  | 0, s => .returned s
  | i + 1, s =>
    match seqs[i]? with
    | none => .panicked s
    | some seq =>
      match Reverse.inner yield seq seq.length s with
      | .next s' => Reverse.outer yield seqs i s'
      | .ret s' => .returned s'
      | .panic s' => .panicked s'

/-- The function `Reverse` of `itertools.go`. -/
def Reverse {T : Type} (seqs : List (List T)) : Seq T :=
  fun _ yield s => Reverse.outer yield seqs seqs.length s

/-- The closure `swapFunc` of `Shuffle`: `seq[i], seq[j] = seq[j], seq[i]` on
the backing storage `seq`; `none` is the index-out-of-range panic. -/
def swapFunc {T : Type} (seq : List T) (i j : Nat) : Option (List T) :=
  match seq[i]?, seq[j]? with
  | some a, some b => some ((seq.set i b).set j a)
  | _, _ => none

/-- The calls that `rand.Shuffle` makes to `swapFunc`, applied in order to the
backing storage.  The boolean is `false` when a call panicked; the storage is
then the one reached before that call. -/
def applySwaps {T : Type} : List (Nat × Nat) → List T → Bool × List T
  | [], seq => (true, seq)
  | (i, j) :: rest, seq =>
    match swapFunc seq i j with
    | some seq' => applySwaps rest seq'
    | none => (false, seq)

/-- One drive of the sequence returned by `Shuffle(seq)` of `itertools.go`.
`seq` is the content of the caller's backing storage when the drive starts and
`rnd n` is the list of index pairs that this drive's call
`rand.Shuffle(n, swapFunc)` passes to `swapFunc`.  The result is the content of
the backing storage after the drive, with the outcome of the drive. -/
def Shuffle {T : Type} (rnd : Nat → List (Nat × Nat)) (seq : List T) (σ : Type)
    (yield : Yield σ T) (s : σ) : List T × Outcome σ :=
  match applySwaps (rnd seq.length) seq with
  | (false, seq') => (seq', .panicked s)
  | (true, seq') =>
    match rangeFunc (Values seq') yield s with
    | .next s' => (seq', .returned s')
    | .ret s' => (seq', .returned s')
    | .panic s' => (seq', .panicked s')

/-- The sequence returned by `Shuffle(seq)`, without the backing storage. -/
def Shuffle.seq {T : Type} (rnd : Nat → List (Nat × Nat)) (seq : List T) : Seq T :=
  fun σ yield s => (Shuffle rnd seq σ yield s).2

/-- The loop of `Filter`.  The caller's `filterFn` is a Go function and may act
on the caller's world, like `yield`. -/
def Filter.loop {σ T : Type} (filterFn : T → σ → Bool × σ) (yield : Yield σ T) :
    List T → σ → σ
  | [], s => s
  | v :: rest, s =>
    match filterFn v s with
    | (true, s1) =>
      match yield v s1 with
      | (true, s2) => Filter.loop filterFn yield rest s2
      | (false, s2) => s2
    | (false, s1) => Filter.loop filterFn yield rest s1

/-- The function `Filter` of `itertools.go`, driven in the world `σ` of the
caller's `filterFn` and `yield`. -/
def Filter {σ T : Type} (seq : List T) (filterFn : T → σ → Bool × σ)
    (yield : Yield σ T) (s : σ) : Outcome σ :=
  .returned (Filter.loop filterFn yield seq s)

/-- The loop of `Map`, `for i, v := range seq { if !yield(i, mapFn(i, v)) { return } }`.
The first argument is the index `i` of the head of the remaining slice.  The
two-argument `yield` of `iter.Seq2[int, T]` takes the pair. -/
def Map.loop {σ T : Type} (mapFn : Nat → T → σ → T × σ) (yield : Yield σ (Nat × T)) :
    Nat → List T → σ → σ
  | _, [], s => s
  | i, v :: rest, s =>
    match mapFn i v s with
    | (r, s1) =>
      match yield (i, r) s1 with
      | (true, s2) => Map.loop mapFn yield (i + 1) rest s2
      | (false, s2) => s2

/-- The function `Map` of `itertools.go`, driven in the world `σ` of the
caller's `mapFn` and `yield`. -/
def Map {σ T : Type} (seq : List T) (mapFn : Nat → T → σ → T × σ)
    (yield : Yield σ (Nat × T)) (s : σ) : Outcome σ :=
  .returned (Map.loop mapFn yield 0 seq s)

/-- A caller's function without side effects, as a function on the world. -/
def pureFn {σ α : Type} (a : α) : σ → α × σ := fun s => (a, s)

/-- The value `Filter(seq, pred)` for a predicate without side effects. -/
def FilterSeq {T : Type} (seq : List T) (pred : T → Bool) : Seq T :=
  fun _ yield s => Filter seq (fun v => pureFn (pred v)) yield s

/-- The value `Map(seq, f)` for a transform without side effects. -/
def MapSeq {T : Type} (seq : List T) (f : Nat → T → T) : Seq (Nat × T) :=
  fun _ yield s => Map seq (fun i v => pureFn (f i v)) yield s

/-- The function `ForEach` of `itertools.go`.  The callback `fn` has no result
and acts on the caller's world `ω`; the loop's own variable `indx` is kept
beside it.  The body never leaves the loop, so it always answers `true`. -/
def ForEach {ω T : Type} (seq : Seq T) (fn : Nat → T → ω → ω) (w : ω) : Outcome ω :=
  match seq (Nat × ω) (fun v st => (true, (st.1 + 1, fn st.1 v st.2))) (0, w) with
  | .returned st => .returned st.2
  | .panicked st => .panicked st.2

/-- The function `Reduce` of `itertools.go`; `none` when the drive of `seq`
panicked, so that `return init` was not reached. -/
def Reduce {T : Type} (seq : Seq T) (reducer : T → T → T) (init : T) : Option T :=
  match seq T (fun v acc => (true, reducer acc v)) init with
  | .returned acc => some acc
  | .panicked _ => none

/-- The test suite's way of reading a sequence:
`for v := range q { a = append(a, v) }`, starting from `a = nil`.  The body
never leaves the loop, so its `yield` always answers `true`. -/
def collect {T : Type} (q : Seq T) : Outcome (List T) :=
  q (List T) (fun v a => (true, a ++ [v])) []

/-! ## Arbitrary finite iterator functions -/

/-- An arbitrary terminating iterator function `func(yield func(T) bool)`,
given by what it does: it either returns, or calls `yield` on an element and
goes on in a way that may depend on the answer.  Nothing obliges it to stop
calling `yield` after the answer `false`. -/
inductive Gen (T : Type) where
  /-- The iterator function returns. -/
  | ret : Gen T
  /-- The iterator function calls `yield(v)` and continues as `k` of the answer. -/
  | call (v : T) (k : Bool → Gen T) : Gen T

/-- The `iter.Seq[T]` value that behaves as described by the tree. -/
def Gen.run {T : Type} (g : Gen T) : Seq T :=
  fun σ yield s =>
    match g with
    | .ret => .returned s
    | .call v k =>
      match yield v s with
      | (c, s') => (k c).run σ yield s'

/-- The full output of an iterator function: the elements it yields when every
answer is `true`. -/
def Gen.output {T : Type} : Gen T → List T
  | .ret => []
  | .call v k => v :: (k true).output

/-! ## Reference notions used in the statements -/

/-- Hand the elements of `out` to `yield` one after the other and stop after
the first answer `false`: the world reached. -/
def deliver {σ T : Type} (yield : Yield σ T) : List T → σ → σ
  | [], s => s
  | v :: rest, s =>
    match yield v s with
    | (true, s') => deliver yield rest s'
    | (false, s') => s'

/-- The shortest initial segment of `out` that ends with the first element on
which `yield` answers `false`; all of `out` when it never does. -/
def handed {σ T : Type} (yield : Yield σ T) : List T → σ → List T
  | [], _ => []
  | v :: rest, s =>
    match yield v s with
    | (true, s') => v :: handed yield rest s'
    | (false, _) => [v]

/-- A consumer that keeps, beside its own world, the list of the elements on
which its `yield` has been invoked. -/
def logging {σ T : Type} (yield : Yield σ T) : Yield (σ × List T) T :=
  fun v w =>
    match yield v w.1 with
    | (c, s') => (c, (s', w.2 ++ [v]))

/-- The elements on which `yield` is invoked during the drive of `q` that
starts in the world `s`, in the order of the invocations. -/
def delivered {σ T : Type} (q : Seq T) (yield : Yield σ T) (s : σ) : List T :=
  (q (σ × List T) (logging yield) (s, [])).state.2

/-- The callback that records its invocations: the world is the list of the
calls made so far. -/
def record {T : Type} : Nat → T → List (Nat × T) → List (Nat × T) :=
  fun i v log => log ++ [(i, v)]

/-- The early-stop contract of a sequence `q`, with respect to its full output
(what a consumer that never stops collects from it): for every consumer, the
elements on which `yield` is invoked are exactly the shortest initial segment
of the full output that ends with the first element on which `yield` answered
`false` (all of it when the answer is never `false`), and the consumer's world
after the drive is the one reached by these invocations alone. -/
def StopsOnDemand {T : Type} (q : Seq T) : Prop :=
  ∀ (σ : Type) (yield : Yield σ T) (s : σ),
    delivered q yield s = handed yield (collect q).state s ∧
    (q σ yield s).state = deliver yield (collect q).state s

/-! ## Traces of the caller's functions -/

/-- The caller's world `σ` together with two logs: the arguments of the calls
made so far to the caller's function (`filterFn` or `mapFn`), and the elements
handed so far to `yield`, each with the answer `yield` gave. -/
structure Traced (σ A B : Type) where
  /-- The caller's own world. -/
  world : σ
  /-- The arguments of the calls of the caller's function, in order. -/
  calls : List A
  /-- The elements handed to `yield` with its answers, in order. -/
  given : List (B × Bool)

/-- A predicate `filterFn` that also writes its argument to the log. -/
def tracedPred {σ T : Type} (filterFn : T → σ → Bool × σ) :
    T → Traced σ T T → Bool × Traced σ T T :=
  fun v t =>
    match filterFn v t.world with
    | (b, w) => (b, ⟨w, t.calls ++ [v], t.given⟩)

/-- A transform `mapFn` that also writes its arguments to the log. -/
def tracedMapFn {σ T : Type} (mapFn : Nat → T → σ → T × σ) :
    Nat → T → Traced σ (Nat × T) (Nat × T) → T × Traced σ (Nat × T) (Nat × T) :=
  fun i v t =>
    match mapFn i v t.world with
    | (r, w) => (r, ⟨w, t.calls ++ [(i, v)], t.given⟩)

/-- A `yield` that also writes its argument and its answer to the log. -/
def tracedYield {σ A B : Type} (yield : Yield σ B) : Yield (Traced σ A B) B :=
  fun v t =>
    match yield v t.world with
    | (c, w) => (c, ⟨w, t.calls, t.given ++ [(v, c)]⟩)

/-- The world and the two logs after the drive of `Filter(seq, filterFn)` by
`yield` that starts in the world `s` with empty logs. -/
def Filter.trace {σ T : Type} (seq : List T) (filterFn : T → σ → Bool × σ)
    (yield : Yield σ T) (s : σ) : Traced σ T T :=
  (Filter seq (tracedPred filterFn) (tracedYield yield) ⟨s, [], []⟩).state

/-- The world and the two logs after the drive of `Map(seq, mapFn)` by `yield`
that starts in the world `s` with empty logs. -/
def Map.trace {σ T : Type} (seq : List T) (mapFn : Nat → T → σ → T × σ)
    (yield : Yield σ (Nat × T)) (s : σ) : Traced σ (Nat × T) (Nat × T) :=
  (Map seq (tracedMapFn mapFn) (tracedYield yield) ⟨s, [], []⟩).state

/-- The place in the order of the yields of `Reverse(seqs)` that belongs to the
element at position `p` of the slice `seqs[i]` (places count from `0`): all
elements of the later slices come first, then the elements of `seqs[i]` behind
position `p`. -/
def yieldIndex {T : Type} (seqs : List (List T)) (i p : Nat) : Nat :=
  (seqs.drop (i + 1)).flatten.length + ((seqs[i]?.getD []).length - 1 - p)

/-- In the order of the yields `out`, a yield of `x` comes before a yield of `y`. -/
def YieldedBefore {T : Type} (out : List T) (x y : T) : Prop :=
  ∃ a b : Nat, a < b ∧ out[a]? = some x ∧ out[b]? = some y

/-! ## The randomness source -/

/-- Modelled from the spec: the function `rand.Shuffle` of the standard library
is not among the sources; the specification names its algorithm, the
Fisher-Yates shuffle.  This is its loop `for i := n - 1; i > 0; i--`, which
draws `j = choice i` in `[0, i]` and calls `swap(i, j)`: the calls made from the
counter value `i` down to `1`. -/
def fisherYates.loop (choice : Nat → Nat) : Nat → List (Nat × Nat)
  | 0 => []
  | i + 1 => (i + 1, choice (i + 1)) :: fisherYates.loop choice i

/-- Modelled from the spec: the swap calls of the Fisher-Yates shuffle
`rand.Shuffle(n, swap)` (not among the sources) when the draw made at the
counter value `i` is `choice i`. -/
def fisherYates (choice : Nat → Nat) (n : Nat) : List (Nat × Nat) :=
  fisherYates.loop choice (n - 1)

/-- The choice vectors of the Fisher-Yates shuffle of `n` elements: one draw
from `[0, i]` for every counter value `i`.  The entry for `i = 0` has a single
possible value and stands for no draw. -/
abbrev Choices (n : Nat) : Type := (i : Fin n) → Fin (i.val + 1)

/-- The draws of a choice vector as a function of the counter value. -/
def Choices.toFun {n : Nat} (c : Choices n) : Nat → Nat :=
  fun i => if h : i < n then (c ⟨i, h⟩).val else 0

/-! ## Iterator functions that need not terminate -/

/-- An iterator function `func(yield func(T) bool)` that need not terminate,
given as a machine: in each state it either returns or calls `yield` on an
element and goes on in a state that may depend on the answer. -/
structure Source (T : Type) where
  /-- The states of the iterator function. -/
  State : Type
  /-- The state in which a call of the iterator function starts. -/
  init : State
  /-- What the iterator function does in a state: `none` when it returns,
  `some (v, k)` when it calls `yield(v)` and goes on in `k` of the answer. -/
  step : State → Option (T × (Bool → State))

/-- A terminating iterator function as a machine: the states are the trees. -/
def Source.ofGen {T : Type} (g : Gen T) : Source T :=
  ⟨Gen T, g, fun g =>
    match g with
    | .ret => none
    | .call v k => some (v, k)⟩

/-- The iterator function `for i := 0; ; i++ { if !yield(f(i)) { return } }`
over the unbounded sequence `f(0), f(1), ...`: the state is the next index,
or `none` after the answer `false`. -/
def Source.ofStream {T : Type} (f : Nat → T) : Source T :=
  ⟨Option Nat, some 0, fun q =>
    match q with
    | none => none
    | some i => some (f i, fun c => if c then some (i + 1) else none)⟩

/-- The first `n` elements that the iterator function yields from the state `q`
when every answer is `true`; fewer when it returns before. -/
def Source.take {T : Type} (Q : Source T) : Nat → Q.State → List T
  | 0, _ => []
  | n + 1, q =>
    match Q.step q with
    | none => []
    | some (v, k) => v :: Q.take n (k true)

/-- The iterator function never returns as long as every answer is `true`: for
every `n` it yields at least `n` elements. -/
def Source.NeverReturns {T : Type} (Q : Source T) : Prop :=
  ∀ n, (Q.take n Q.init).length = n

/-- What a loop has come to when the fuel is used up or the loop has ended. -/
inductive Run (σ : Type) where
  /-- The loop ended as `f`; `fuel` steps are left. -/
  | ended (f : Flow σ) (fuel : Nat) : Run σ
  /-- The fuel is used up and the iterator function is still at work; `s` is
  the consumer's world reached so far. -/
  | running (s : σ) : Run σ

/-- The loop `for v := range seq { if !yield(v) { return } }` over an iterator
function that need not terminate, run for at most `fuel` steps of the
iterator function.  A call of the body after the body has left the loop is the
run-time panic. -/
def rangeFuncF {σ T : Type} (Q : Source T) (yield : Yield σ T) :
    Nat → Q.State → RangeState → σ → Run σ
  | 0, _, _, s => .running s
  | fuel + 1, q, st, s =>
    match Q.step q with
    | none =>
      match st with
      | .ready => .ended (.next s) fuel
      | _ => .ended (.ret s) fuel
    | some (v, k) =>
      match st with
      | .ready =>
        match yield v s with
        | (true, s') => rangeFuncF Q yield fuel (k true) .ready s'
        | (false, s') => rangeFuncF Q yield fuel (k false) .done s'
      | _ => .ended (.panic s) fuel

/-- What a drive has come to: its outcome, or the consumer's world reached so
far when the fuel is used up and the drive is still going on. -/
inductive Progress (σ : Type) where
  /-- The drive ended. -/
  | finished (o : Outcome σ) : Progress σ
  /-- The drive is still going on. -/
  | running (s : σ) : Progress σ

/-- The consumer's world reached. -/
def Progress.state {σ : Type} : Progress σ → σ
  | .finished o => o.state
  | .running s => s

/-- The outer loop of `ConcatIter` over iterator functions that need not
terminate, run for at most `fuel` steps of the sources. -/
def ConcatIterF.loop {σ T : Type} (yield : Yield σ T) : List (Source T) → Nat → σ → Progress σ
  | [], _, s => .finished (.returned s)
  | Q :: rest, fuel, s =>
    match rangeFuncF Q yield fuel Q.init .ready s with
    | .running s' => .running s'
    | .ended (.next s') fuel' => ConcatIterF.loop yield rest fuel' s'
    | .ended (.ret s') _ => .finished (.returned s')
    | .ended (.panic s') _ => .finished (.panicked s')

/-- The function `ConcatIter` of `itertools.go` over iterator functions that
need not terminate: the drive of `ConcatIter(seqs...)` by `yield`, run for at
most `fuel` steps of the sources. -/
def ConcatIterF {T : Type} (seqs : List (Source T)) (σ : Type) (yield : Yield σ T)
    (fuel : Nat) (s : σ) : Progress σ :=
  ConcatIterF.loop yield seqs fuel s

/-- The elements on which `yield` has been invoked when the drive of
`ConcatIter(seqs...)` has run for at most `fuel` steps. -/
def deliveredF {σ T : Type} (seqs : List (Source T)) (yield : Yield σ T) (fuel : Nat)
    (s : σ) : List T :=
  (ConcatIterF seqs (σ × List T) (logging yield) fuel (s, [])).state.2

/-- The first `k` elements of the concatenation of the full outputs of the
terminating iterator functions `pre` and of the iterator function `Q`. -/
def firstOutputs {T : Type} (pre : List (Gen T)) (Q : Source T) (k : Nat) : List T :=
  ((pre.map Gen.output).flatten ++ Q.take k Q.init).take k

/-- The consumer that counts the elements it receives and signals stop on the
`k`-th of them; its world is the number of elements received so far. -/
def stopOn {T : Type} (k : Nat) : Yield Nat T :=
  fun _ n => (decide (n + 1 < k), n + 1)

/-! ## The call of `Shuffle` and the drives of its result -/

/-- A sequence that works on a slice of the caller, as the closure returned by
`Shuffle` does: the closure has captured the slice, not its content, so a
drive takes the content of the backing storage at the moment it starts, with
the index pairs `rnd` that its own call of `rand.Shuffle` passes to the swap
function, and returns the content of the storage afterwards with the outcome
of the drive. -/
def StorageSeq (T : Type) : Type 1 :=
  (Nat → List (Nat × Nat)) → List T → (σ : Type) → Yield σ T → σ → List T × Outcome σ

/-- The call `Shuffle(seq)` of `itertools.go` itself.  Its body is the single
statement `return func(yield func(T) bool) { ... }`: no statement of the
closure is executed by the call.  The result is the content of the caller's
backing storage after the call, `seq` being its content before, together with
the returned sequence, whose drives are the drives `Shuffle rnd storage`. -/
def Shuffle.call {T : Type} (seq : List T) : List T × StorageSeq T :=
  (seq, fun rnd storage σ yield s => Shuffle rnd storage σ yield s)

/-! ## Basic facts about the loops -/

theorem deliver_append {σ T : Type} (yield : Yield σ T) (a b : List T) (s : σ) :
    deliver yield (a ++ b) s =
      match rangeSlice yield a s with
      | (true, s') => deliver yield b s'
      | (false, s') => s' := by
  induction a generalizing s with
  | nil => rfl
  | cons v rest ih =>
    simp only [List.cons_append, deliver, rangeSlice]
    rcases h : yield v s with ⟨c, s'⟩
    cases c
    · rfl
    · exact ih s'

theorem rangeSlice_snd {σ T : Type} (yield : Yield σ T) (l : List T) (s : σ) :
    (rangeSlice yield l s).2 = deliver yield l s := by
  induction l generalizing s with
  | nil => rfl
  | cons v rest ih =>
    simp only [deliver, rangeSlice]
    rcases h : yield v s with ⟨c, s'⟩
    cases c
    · rfl
    · exact ih s'

theorem Concat_loop_eq {σ T : Type} (yield : Yield σ T) (seqs : List (List T)) (s : σ) :
    Concat.loop yield seqs s = deliver yield seqs.flatten s := by
  induction seqs generalizing s with
  | nil => rfl
  | cons seq rest ih =>
    rw [List.flatten_cons, deliver_append, Concat.loop]
    rcases h : rangeSlice yield seq s with ⟨c, s'⟩
    cases c
    · rfl
    · exact ih s'

theorem deliver_collect {T : Type} (l a : List T) :
    deliver (fun v (a : List T) => (true, a ++ [v])) l a = a ++ l := by
  induction l generalizing a with
  | nil => simp [deliver]
  | cons v rest ih => simp [deliver, ih]

theorem Reverse_inner_eq {σ T : Type} (yield : Yield σ T) (seq : List T) (n : Nat)
    (hn : n ≤ seq.length) (s : σ) :
    Reverse.inner yield seq n s =
      match rangeSlice yield (seq.take n).reverse s with
      | (true, s') => .next s'
      | (false, s') => .ret s' := by
  induction n generalizing s with
  | zero => simp [Reverse.inner, rangeSlice]
  | succ j ih =>
    have hj : j < seq.length := hn
    have hget : seq[j]? = some seq[j] := List.getElem?_eq_getElem hj
    have htake : (seq.take (j + 1)).reverse = seq[j] :: (seq.take j).reverse := by
      rw [List.take_succ, hget]
      simp only [Option.toList_some, List.reverse_append, List.reverse_cons, List.reverse_nil,
        List.nil_append, List.singleton_append]
    rw [htake, Reverse.inner, hget]
    simp only [rangeSlice]
    rcases h : yield seq[j] s with ⟨c, s'⟩
    cases c
    · rfl
    · exact ih (Nat.le_of_lt hj) s'

theorem Reverse_outer_eq {σ T : Type} (yield : Yield σ T) (seqs : List (List T)) (n : Nat)
    (hn : n ≤ seqs.length) (s : σ) :
    Reverse.outer yield seqs n s =
      .returned (deliver yield (seqs.take n).flatten.reverse s) := by
  induction n generalizing s with
  | zero => simp [Reverse.outer, deliver]
  | succ i ih =>
    have hi : i < seqs.length := hn
    have hget : seqs[i]? = some seqs[i] := List.getElem?_eq_getElem hi
    have htake : (seqs.take (i + 1)).flatten.reverse
        = seqs[i].reverse ++ (seqs.take i).flatten.reverse := by
      rw [List.take_succ, hget]
      simp only [Option.toList_some, List.flatten_append, List.flatten_cons, List.flatten_nil,
        List.append_nil, List.reverse_append]
    rw [htake, deliver_append, Reverse.outer, hget]
    simp only
    rw [Reverse_inner_eq yield seqs[i] seqs[i].length (Nat.le_refl _) s, List.take_length]
    rcases h : rangeSlice yield seqs[i].reverse s with ⟨c, s'⟩
    cases c
    · rfl
    · exact ih (Nat.le_of_lt hi) s'

theorem Reverse_eq {σ T : Type} (yield : Yield σ T) (seqs : List (List T)) (s : σ) :
    Reverse seqs σ yield s = .returned (deliver yield seqs.flatten.reverse s) := by
  rw [Reverse, Reverse_outer_eq yield seqs seqs.length (Nat.le_refl _) s, List.take_length]

theorem collect_Concat {T : Type} (seqs : List (List T)) :
    collect (Concat seqs) = .returned seqs.flatten := by
  simp [collect, Concat, Concat_loop_eq, deliver_collect]

theorem collect_Reverse {T : Type} (seqs : List (List T)) :
    collect (Reverse seqs) = .returned seqs.flatten.reverse := by
  simp [collect, Reverse_eq, deliver_collect]

theorem Filter_loop_eq {σ T : Type} (pred : T → Bool) (yield : Yield σ T) (seq : List T)
    (s : σ) :
    Filter.loop (fun v => pureFn (pred v)) yield seq s = deliver yield (seq.filter pred) s := by
  induction seq generalizing s with
  | nil => rfl
  | cons v rest ih =>
    cases hp : pred v
    · simp only [Filter.loop, pureFn, hp]
      rw [List.filter_cons_of_neg (by simp [hp])]
      exact ih s
    · simp only [Filter.loop, pureFn, hp]
      rw [List.filter_cons_of_pos hp]
      simp only [deliver]
      rcases h : yield v s with ⟨c, s'⟩
      cases c
      · rfl
      · exact ih s'

theorem FilterSeq_eq {σ T : Type} (pred : T → Bool) (yield : Yield σ T) (seq : List T)
    (s : σ) :
    FilterSeq seq pred σ yield s = .returned (deliver yield (seq.filter pred) s) := by
  simp only [FilterSeq, Filter, Filter_loop_eq]

theorem collect_FilterSeq {T : Type} (seq : List T) (pred : T → Bool) :
    collect (FilterSeq seq pred) = .returned (seq.filter pred) := by
  simp [collect, FilterSeq_eq, deliver_collect]

theorem Map_loop_eq {σ T : Type} (f : Nat → T → T) (yield : Yield σ (Nat × T)) (i : Nat)
    (seq : List T) (s : σ) :
    Map.loop (fun i v => pureFn (f i v)) yield i seq s =
      deliver yield ((seq.enumFrom i).map fun p => (p.1, f p.1 p.2)) s := by
  induction seq generalizing i s with
  | nil => rfl
  | cons v rest ih =>
    simp only [Map.loop, pureFn, List.enumFrom_cons, List.map_cons, deliver]
    rcases h : yield (i, f i v) s with ⟨c, s'⟩
    cases c
    · rfl
    · exact ih (i + 1) s'

theorem MapSeq_eq {σ T : Type} (f : Nat → T → T) (yield : Yield σ (Nat × T))
    (seq : List T) (s : σ) :
    MapSeq seq f σ yield s =
      .returned (deliver yield (seq.enum.map fun p => (p.1, f p.1 p.2)) s) := by
  simp only [MapSeq, Map, Map_loop_eq, List.enum]

theorem collect_MapSeq {T : Type} (seq : List T) (f : Nat → T → T) :
    collect (MapSeq seq f) = .returned (seq.enum.map fun p => (p.1, f p.1 p.2)) := by
  simp [collect, MapSeq_eq, deliver_collect]

theorem rangeSlice_fst {σ T : Type} (yield : Yield σ T) (h : ∀ v s, (yield v s).1 = true)
    (l : List T) (s : σ) : (rangeSlice yield l s).1 = true := by
  induction l generalizing s with
  | nil => rfl
  | cons v rest ih =>
    simp only [rangeSlice]
    rcases hy : yield v s with ⟨c, s'⟩
    have hc : c = true := by simpa [hy] using h v s
    subst hc
    exact ih s'

theorem Values_eq {σ T : Type} (yield : Yield σ T) (l : List T) (s : σ) :
    Values l σ yield s = .returned (deliver yield l s) := by
  simp only [Values, rangeSlice_snd]

theorem Gen_run_of_true {σ T : Type} (yield : Yield σ T) (h : ∀ v s, (yield v s).1 = true)
    (g : Gen T) (s : σ) : g.run σ yield s = .returned (deliver yield g.output s) := by
  induction g generalizing s with
  | ret => rfl
  | call v k ih =>
    simp only [Gen.run, Gen.output, deliver]
    rcases hy : yield v s with ⟨c, s'⟩
    have hc : c = true := by simpa [hy] using h v s
    subst hc
    exact ih true s'

theorem deliver_fold {σ T : Type} (step : T → σ → σ) (l : List T) (s : σ) :
    deliver (fun v a => (true, step v a)) l s = l.foldl (fun a v => step v a) s := by
  induction l generalizing s with
  | nil => rfl
  | cons v rest ih => simp only [deliver, List.foldl_cons, ih]

theorem Reduce_run {T : Type} (g : Gen T) (reducer : T → T → T) (init : T) :
    Reduce g.run reducer init = some (g.output.foldl reducer init) := by
  have h := Gen_run_of_true (fun v (acc : T) => (true, reducer acc v)) (fun _ _ => rfl) g init
  simp only [Reduce, h]
  exact congrArg some (deliver_fold (fun v a => reducer a v) g.output init)

theorem Reduce_Values {T : Type} (xs : List T) (reducer : T → T → T) (init : T) :
    Reduce (Values xs) reducer init = some (xs.foldl reducer init) := by
  simp only [Reduce, Values_eq]
  exact congrArg some (deliver_fold (fun v a => reducer a v) xs init)

theorem deliver_indexed {ω T : Type} (fn : Nat → T → ω → ω) (l : List T) (i : Nat) (w : ω) :
    deliver (fun v (st : Nat × ω) => (true, (st.1 + 1, fn st.1 v st.2))) l (i, w) =
      (i + l.length, (l.enumFrom i).foldl (fun w p => fn p.1 p.2 w) w) := by
  induction l generalizing i w with
  | nil => rfl
  | cons v rest ih =>
    simp only [deliver, ih, List.enumFrom_cons, List.foldl_cons, List.length_cons]
    congr 1
    omega

theorem ForEach_run {ω T : Type} (g : Gen T) (fn : Nat → T → ω → ω) (w : ω) :
    ForEach g.run fn w = .returned (g.output.enum.foldl (fun w p => fn p.1 p.2 w) w) := by
  have h := Gen_run_of_true (fun v (st : Nat × ω) => (true, (st.1 + 1, fn st.1 v st.2)))
    (fun _ _ => rfl) g (0, w)
  simp only [ForEach, h, deliver_indexed, List.enum]

theorem ForEach_Values {ω T : Type} (xs : List T) (fn : Nat → T → ω → ω) (w : ω) :
    ForEach (Values xs) fn w = .returned (xs.enum.foldl (fun w p => fn p.1 p.2 w) w) := by
  simp only [ForEach, Values_eq, deliver_indexed, List.enum]

theorem foldl_record {T : Type} (l : List (Nat × T)) (log : List (Nat × T)) :
    l.foldl (fun w p => record p.1 p.2 w) log = log ++ l := by
  induction l generalizing log with
  | nil => simp
  | cons p rest ih =>
    rw [List.foldl_cons, ih]
    simp [record]

theorem cons_set_perm {T : Type} (l : List T) (i : Nat) (x y : T) (h : l[i]? = some x) :
    (x :: l.set i y).Perm (y :: l) := by
  induction l generalizing i with
  | nil => simp at h
  | cons a t ih =>
    cases i with
    | zero =>
      have hx : a = x := by simpa using h
      subst hx
      exact List.Perm.swap _ _ _
    | succ k =>
      have hk : t[k]? = some x := by simpa using h
      rw [List.set_cons_succ]
      exact ((List.Perm.swap a x _).trans ((ih k hk).cons a)).trans (List.Perm.swap y a t)

theorem swapFunc_perm {T : Type} (seq seq' : List T) (i j : Nat)
    (h : swapFunc seq i j = some seq') : seq'.Perm seq := by
  unfold swapFunc at h
  cases hi : seq[i]? with
  | none => simp [hi] at h
  | some a =>
    cases hj : seq[j]? with
    | none => simp [hi, hj] at h
    | some b =>
      simp only [hi, hj, Option.some.injEq] at h
      subst h
      have hjlt : j < seq.length := (List.getElem?_eq_some_iff.mp hj).1
      have hj' : (seq.set i b)[j]? = some b := by
        by_cases hij : i = j
        · subst hij
          exact List.getElem?_set_self hjlt
        · rw [List.getElem?_set_ne hij, hj]
      have h1 := cons_set_perm (seq.set i b) j b a hj'
      have h2 := cons_set_perm seq i a b hi
      exact (h1.trans h2).cons_inv

theorem swapFunc_isSome {T : Type} (seq : List T) (i j : Nat) (hi : i < seq.length)
    (hj : j < seq.length) : ∃ seq', swapFunc seq i j = some seq' := by
  simp [swapFunc, List.getElem?_eq_getElem hi, List.getElem?_eq_getElem hj]

theorem applySwaps_perm {T : Type} (swaps : List (Nat × Nat)) (seq : List T)
    (h : ∀ p ∈ swaps, p.1 < seq.length ∧ p.2 < seq.length) :
    ∃ seq', applySwaps swaps seq = (true, seq') ∧ seq'.Perm seq := by
  induction swaps generalizing seq with
  | nil => exact ⟨seq, rfl, List.Perm.refl _⟩
  | cons p rest ih =>
    obtain ⟨i, j⟩ := p
    have hp := h (i, j) (List.mem_cons_self _ _)
    obtain ⟨seq1, h1⟩ := swapFunc_isSome seq i j hp.1 hp.2
    have hperm := swapFunc_perm seq seq1 i j h1
    have hrest : ∀ q ∈ rest, q.1 < seq1.length ∧ q.2 < seq1.length := by
      intro q hq
      rw [hperm.length_eq]
      exact h q (List.mem_cons_of_mem _ hq)
    obtain ⟨seq2, h2, hperm2⟩ := ih seq1 hrest
    refine ⟨seq2, ?_, hperm2.trans hperm⟩
    simp only [applySwaps, h1, h2]

theorem rangeSlice_rangeBody {σ T : Type} (yield : Yield σ T) (l : List T) (s : σ) :
    rangeSlice (rangeBody yield) l (s, .ready) =
      match rangeSlice yield l s with
      | (true, s') => (true, (s', .ready))
      | (false, s') => (false, (s', .done)) := by
  induction l generalizing s with
  | nil => rfl
  | cons v rest ih =>
    simp only [rangeSlice, rangeBody]
    rcases h : yield v s with ⟨c, s'⟩
    cases c
    · rfl
    · exact ih s'

theorem rangeFunc_Values {σ T : Type} (yield : Yield σ T) (l : List T) (s : σ) :
    rangeFunc (Values l) yield s =
      match rangeSlice yield l s with
      | (true, s') => .next s'
      | (false, s') => .ret s' := by
  simp only [rangeFunc, Values, rangeSlice_rangeBody]
  rcases h : rangeSlice yield l s with ⟨c, s'⟩
  cases c <;> rfl

theorem Shuffle_eq {σ T : Type} (rnd : Nat → List (Nat × Nat)) (seq seq' : List T)
    (h : applySwaps (rnd seq.length) seq = (true, seq')) (yield : Yield σ T) (s : σ) :
    Shuffle rnd seq σ yield s = (seq', .returned (deliver yield seq' s)) := by
  simp only [Shuffle, h, rangeFunc_Values, ← rangeSlice_snd]
  rcases h2 : rangeSlice yield seq' s with ⟨c, s'⟩
  cases c <;> rfl

theorem Gen_run_call {σ T : Type} (yield : Yield σ T) (v : T) (k : Bool → Gen T) (s : σ) :
    (Gen.call v k).run σ yield s = (k (yield v s).1).run σ yield (yield v s).2 := rfl

theorem Gen_run_stopped {σ T : Type} (yield : Yield σ T) (g : Gen T) (s : σ)
    (st : RangeState) (hst : st ≠ .ready) :
    ∃ st', st' ≠ RangeState.ready ∧
      g.run (σ × RangeState) (rangeBody yield) (s, st) = .returned (s, st') := by
  induction g generalizing st with
  | ret => exact ⟨st, hst, rfl⟩
  | call v k ih =>
    have hb : rangeBody yield v (s, st) = (false, (s, .misused)) := by
      cases st with
      | ready => exact absurd rfl hst
      | done => rfl
      | misused => rfl
    obtain ⟨st', h1, h2⟩ := ih false .misused (by decide)
    refine ⟨st', h1, ?_⟩
    rw [Gen_run_call, hb]
    exact h2

theorem rangeFunc_run {σ T : Type} (yield : Yield σ T) (g : Gen T) (s : σ) :
    match rangeSlice yield g.output s with
    | (true, s') => rangeFunc g.run yield s = .next s'
    | (false, s') => rangeFunc g.run yield s = .ret s' ∨ rangeFunc g.run yield s = .panic s' := by
  induction g generalizing s with
  | ret => rfl
  | call v k ih =>
    simp only [Gen.output, rangeSlice]
    rcases hy : yield v s with ⟨c, s'⟩
    cases c
    · have hb : rangeBody yield v (s, .ready) = (false, (s', .done)) := by
        simp only [rangeBody, hy]
      obtain ⟨st', h1, h2⟩ := Gen_run_stopped yield (k false) s' .done (by decide)
      have hrun : (Gen.call v k).run (σ × RangeState) (rangeBody yield) (s, .ready)
          = .returned (s', st') := by
        rw [Gen_run_call, hb]
        exact h2
      simp only [rangeFunc, hrun]
      cases st' with
      | ready => exact absurd rfl h1
      | done => exact Or.inl rfl
      | misused => exact Or.inr rfl
    · have hb : rangeBody yield v (s, .ready) = (true, (s', .ready)) := by
        simp only [rangeBody, hy]
      have hrun : rangeFunc (Gen.call v k).run yield s = rangeFunc (k true).run yield s' := by
        simp only [rangeFunc]
        rw [Gen_run_call, hb]
      simp only [hrun]
      exact ih true s'

theorem ConcatIter_loop_run_state {σ T : Type} (yield : Yield σ T) (gs : List (Gen T))
    (s : σ) :
    (ConcatIter.loop yield (gs.map Gen.run) s).state =
      deliver yield (gs.map Gen.output).flatten s := by
  induction gs generalizing s with
  | nil => rfl
  | cons g rest ih =>
    rw [List.map_cons, List.map_cons, List.flatten_cons, deliver_append, ConcatIter.loop]
    have h := rangeFunc_run yield g s
    rcases hr : rangeSlice yield g.output s with ⟨c, s'⟩
    rw [hr] at h
    cases c
    · rcases h with h | h <;> simp only [h] <;> rfl
    · simp only [h]
      exact ih s'

theorem ConcatIter_loop_run_of_true {σ T : Type} (yield : Yield σ T)
    (hy : ∀ v s, (yield v s).1 = true) (gs : List (Gen T)) (s : σ) :
    ConcatIter.loop yield (gs.map Gen.run) s =
      .returned (deliver yield (gs.map Gen.output).flatten s) := by
  induction gs generalizing s with
  | nil => rfl
  | cons g rest ih =>
    rw [List.map_cons, List.map_cons, List.flatten_cons, deliver_append, ConcatIter.loop]
    have h := rangeFunc_run yield g s
    have ht := rangeSlice_fst yield hy g.output s
    rcases hr : rangeSlice yield g.output s with ⟨c, s'⟩
    rw [hr] at h ht
    simp only at ht
    subst ht
    simp only [h]
    exact ih s'

theorem ConcatIter_loop_Values {σ T : Type} (yield : Yield σ T) (seqs : List (List T))
    (s : σ) :
    ConcatIter.loop yield (seqs.map Values) s = .returned (Concat.loop yield seqs s) := by
  induction seqs generalizing s with
  | nil => rfl
  | cons seq rest ih =>
    rw [List.map_cons, ConcatIter.loop, Concat.loop, rangeFunc_Values]
    rcases hr : rangeSlice yield seq s with ⟨c, s'⟩
    cases c
    · rfl
    · exact ih s'

theorem collect_ConcatIter_run {T : Type} (gs : List (Gen T)) :
    collect (ConcatIter (gs.map Gen.run)) = .returned (gs.map Gen.output).flatten := by
  simp only [collect, ConcatIter]
  rw [ConcatIter_loop_run_of_true _ (fun _ _ => rfl), deliver_collect, List.nil_append]

theorem collect_ConcatIter_Values {T : Type} (seqs : List (List T)) :
    collect (ConcatIter (seqs.map Values)) = .returned seqs.flatten := by
  simp only [collect, ConcatIter, ConcatIter_loop_Values, Concat_loop_eq, deliver_collect,
    List.nil_append]

theorem deliver_logging {σ T : Type} (yield : Yield σ T) (l : List T) (s : σ) (log : List T) :
    deliver (logging yield) l (s, log) = (deliver yield l s, log ++ handed yield l s) := by
  induction l generalizing s log with
  | nil => simp [deliver, handed]
  | cons v rest ih =>
    simp only [deliver, handed, logging]
    rcases h : yield v s with ⟨c, s'⟩
    cases c
    · rfl
    · simp only [ih, List.append_assoc, List.singleton_append]

theorem StopsOnDemand_of_deliver {T : Type} {q : Seq T} (out : List T)
    (h : ∀ (σ : Type) (yield : Yield σ T) (s : σ), (q σ yield s).state = deliver yield out s) :
    StopsOnDemand q := by
  have hout : (collect q).state = out := by
    rw [collect, h, deliver_collect, List.nil_append]
  intro σ yield s
  rw [hout]
  refine ⟨?_, h σ yield s⟩
  rw [delivered, h, deliver_logging, List.nil_append]

theorem Shuffle_seq_state {σ T : Type} (rnd : Nat → List (Nat × Nat)) (seq : List T)
    (yield : Yield σ T) (s : σ) :
    (Shuffle.seq rnd seq σ yield s).state =
      deliver yield
        (match applySwaps (rnd seq.length) seq with
          | (true, seq') => seq'
          | (false, _) => []) s := by
  rcases h : applySwaps (rnd seq.length) seq with ⟨ok, seq'⟩
  cases ok
  · simp only [Shuffle.seq, Shuffle, h]
    rfl
  · simp only [Shuffle.seq, Shuffle_eq rnd seq seq' h]
    rfl

theorem Reduce_Concat {T : Type} (seqs : List (List T)) (reducer : T → T → T) (init : T) :
    Reduce (Concat seqs) reducer init = some (seqs.flatten.foldl reducer init) := by
  simp only [Reduce, Concat, Concat_loop_eq]
  exact congrArg some (deliver_fold (fun v a => reducer a v) seqs.flatten init)

theorem Reverse_inner_no_panic {σ T : Type} (yield : Yield σ T) (seq : List T) (n : Nat)
    (hn : n ≤ seq.length) (s s' : σ) : Reverse.inner yield seq n s ≠ .panic s' := by
  rw [Reverse_inner_eq yield seq n hn s]
  rcases rangeSlice yield (seq.take n).reverse s with ⟨c, s''⟩
  cases c <;> simp

theorem Filter_loop_traced {σ T : Type} (filterFn : T → σ → Bool × σ) (yield : Yield σ T)
    (S : List T) (t : Traced σ T T) :
    ∃ (m : Nat) (extra : List (T × Bool)),
      m ≤ S.length ∧
      (Filter.loop (tracedPred filterFn) (tracedYield yield) S t).calls = t.calls ++ S.take m ∧
      (Filter.loop (tracedPred filterFn) (tracedYield yield) S t).given = t.given ++ extra ∧
      (Filter.loop (tracedPred filterFn) (tracedYield yield) S t).world
        = Filter.loop filterFn yield S t.world ∧
      ((∀ p ∈ extra, p.2 = true) → m = S.length) ∧
      (∀ v, extra.getLast? = some (v, false) → 0 < m ∧ S[m - 1]? = some v) := by
  induction S generalizing t with
  | nil => exact ⟨0, [], Nat.le_refl _, by simp [Filter.loop], by simp [Filter.loop], rfl,
      fun _ => rfl, fun v h => by simp at h⟩
  | cons a rest ih =>
    rcases hf : filterFn a t.world with ⟨b, w1⟩
    cases b
    · have hstep : Filter.loop (tracedPred filterFn) (tracedYield yield) (a :: rest) t
          = Filter.loop (tracedPred filterFn) (tracedYield yield) rest
              ⟨w1, t.calls ++ [a], t.given⟩ := by
        simp only [Filter.loop, tracedPred, hf]
      have hplain : Filter.loop filterFn yield (a :: rest) t.world
          = Filter.loop filterFn yield rest w1 := by
        simp only [Filter.loop, hf]
      obtain ⟨m, extra, hm, hc, hg, hw, hall, hlast⟩ := ih ⟨w1, t.calls ++ [a], t.given⟩
      refine ⟨m + 1, extra, by simpa using hm, ?_, ?_, ?_, ?_, ?_⟩
      · rw [hstep, hc]; simp
      · rw [hstep, hg]
      · rw [hstep, hw, hplain]
      · intro h; simp [hall h]
      · intro v h
        obtain ⟨hpos, hv⟩ := hlast v h
        refine ⟨Nat.succ_pos _, ?_⟩
        obtain ⟨m', rfl⟩ : ∃ m', m = m' + 1 := ⟨m - 1, by omega⟩
        simpa using hv
    · rcases hy : yield a w1 with ⟨c, w2⟩
      cases c
      · have hstep : Filter.loop (tracedPred filterFn) (tracedYield yield) (a :: rest) t
            = ⟨w2, t.calls ++ [a], t.given ++ [(a, false)]⟩ := by
          simp only [Filter.loop, tracedPred, tracedYield, hf, hy]
        have hplain : Filter.loop filterFn yield (a :: rest) t.world = w2 := by
          simp only [Filter.loop, hf, hy]
        refine ⟨1, [(a, false)], by simp, ?_, ?_, ?_, ?_, ?_⟩
        · rw [hstep]; simp
        · rw [hstep]
        · rw [hstep, hplain]
        · intro h; simpa using h (a, false) (List.mem_singleton_self _)
        · intro v h
          have : a = v := by simpa using h
          subst this
          simp
      · have hstep : Filter.loop (tracedPred filterFn) (tracedYield yield) (a :: rest) t
            = Filter.loop (tracedPred filterFn) (tracedYield yield) rest
                ⟨w2, t.calls ++ [a], t.given ++ [(a, true)]⟩ := by
          simp only [Filter.loop, tracedPred, tracedYield, hf, hy]
        have hplain : Filter.loop filterFn yield (a :: rest) t.world
            = Filter.loop filterFn yield rest w2 := by
          simp only [Filter.loop, hf, hy]
        obtain ⟨m, extra, hm, hc, hg, hw, hall, hlast⟩ :=
          ih ⟨w2, t.calls ++ [a], t.given ++ [(a, true)]⟩
        refine ⟨m + 1, (a, true) :: extra, by simpa using hm, ?_, ?_, ?_, ?_, ?_⟩
        · rw [hstep, hc]; simp
        · rw [hstep, hg]; simp
        · rw [hstep, hw, hplain]
        · intro h
          have : m = rest.length := hall fun p hp => h p (List.mem_cons_of_mem _ hp)
          simp [this]
        · intro v h
          have h' : extra.getLast? = some (v, false) := by
            cases extra with
            | nil => simp at h
            | cons b e => simpa using h
          obtain ⟨hpos, hv⟩ := hlast v h'
          refine ⟨Nat.succ_pos _, ?_⟩
          obtain ⟨m', rfl⟩ : ∃ m', m = m' + 1 := ⟨m - 1, by omega⟩
          simpa using hv

theorem Map_loop_traced {σ T : Type} (mapFn : Nat → T → σ → T × σ)
    (yield : Yield σ (Nat × T)) (S : List T) (i : Nat) (t : Traced σ (Nat × T) (Nat × T)) :
    ∃ (m : Nat) (extra : List ((Nat × T) × Bool)),
      m ≤ S.length ∧
      (Map.loop (tracedMapFn mapFn) (tracedYield yield) i S t).calls
        = t.calls ++ (S.enumFrom i).take m ∧
      (Map.loop (tracedMapFn mapFn) (tracedYield yield) i S t).given = t.given ++ extra ∧
      (Map.loop (tracedMapFn mapFn) (tracedYield yield) i S t).world
        = Map.loop mapFn yield i S t.world ∧
      extra.map (fun p => p.1.1) = ((S.enumFrom i).take m).map Prod.fst ∧
      ((∀ p ∈ extra, p.2 = true) → m = S.length) ∧
      (∀ k r, extra.getLast? = some ((k, r), false) → k + 1 = i + m) := by
  induction S generalizing i t with
  | nil => exact ⟨0, [], Nat.le_refl _, by simp [Map.loop], by simp [Map.loop], rfl, rfl,
      fun _ => rfl, fun k r h => by simp at h⟩
  | cons a rest ih =>
    rcases hf : mapFn i a t.world with ⟨r, w1⟩
    rcases hy : yield (i, r) w1 with ⟨c, w2⟩
    cases c
    · have hstep : Map.loop (tracedMapFn mapFn) (tracedYield yield) i (a :: rest) t
          = ⟨w2, t.calls ++ [(i, a)], t.given ++ [((i, r), false)]⟩ := by
        simp only [Map.loop, tracedMapFn, tracedYield, hf, hy]
      have hplain : Map.loop mapFn yield i (a :: rest) t.world = w2 := by
        simp only [Map.loop, hf, hy]
      refine ⟨1, [((i, r), false)], by simp, ?_, ?_, ?_, ?_, ?_, ?_⟩
      · rw [hstep]; simp
      · rw [hstep]
      · rw [hstep, hplain]
      · simp
      · intro h; simpa using h ((i, r), false) (List.mem_singleton_self _)
      · intro k r' h
        have : i = k := by
          have h2 : ((i, r), false) = ((k, r'), false) := by simpa using h
          exact congrArg (fun p => p.1.1) h2
        omega
    · have hstep : Map.loop (tracedMapFn mapFn) (tracedYield yield) i (a :: rest) t
          = Map.loop (tracedMapFn mapFn) (tracedYield yield) (i + 1) rest
              ⟨w2, t.calls ++ [(i, a)], t.given ++ [((i, r), true)]⟩ := by
        simp only [Map.loop, tracedMapFn, tracedYield, hf, hy]
      have hplain : Map.loop mapFn yield i (a :: rest) t.world
          = Map.loop mapFn yield (i + 1) rest w2 := by
        simp only [Map.loop, hf, hy]
      obtain ⟨m, extra, hm, hc, hg, hw, hidx, hall, hlast⟩ :=
        ih (i + 1) ⟨w2, t.calls ++ [(i, a)], t.given ++ [((i, r), true)]⟩
      refine ⟨m + 1, ((i, r), true) :: extra, by simpa using hm, ?_, ?_, ?_, ?_, ?_, ?_⟩
      · rw [hstep, hc]; simp
      · rw [hstep, hg]; simp
      · rw [hstep, hw, hplain]
      · simp [hidx]
      · intro h
        have : m = rest.length := hall fun p hp => h p (List.mem_cons_of_mem _ hp)
        simp [this]
      · intro k r' h
        have h' : extra.getLast? = some ((k, r'), false) := by
          cases extra with
          | nil => simp at h
          | cons b e => simpa using h
        have := hlast k r' h'
        omega

theorem Filter_trace_spec {σ T : Type} (S : List T) (filterFn : T → σ → Bool × σ)
    (yield : Yield σ T) (s : σ) :
    ∃ m : Nat, m ≤ S.length ∧
      (Filter.trace S filterFn yield s).calls = S.take m ∧
      (Filter.trace S filterFn yield s).world = (Filter S filterFn yield s).state ∧
      ((∀ p ∈ (Filter.trace S filterFn yield s).given, p.2 = true) → m = S.length) ∧
      (∀ v, (Filter.trace S filterFn yield s).given.getLast? = some (v, false) →
        0 < m ∧ S[m - 1]? = some v) := by
  obtain ⟨m, extra, hm, hc, hg, hw, hall, hlast⟩ :=
    Filter_loop_traced filterFn yield S ⟨s, [], []⟩
  have hg' : (Filter.trace S filterFn yield s).given = extra := by
    simpa [Filter.trace, Filter, Outcome.state] using hg
  refine ⟨m, hm, ?_, ?_, ?_, ?_⟩
  · simpa [Filter.trace, Filter, Outcome.state] using hc
  · simpa [Filter.trace, Filter, Outcome.state] using hw
  · rw [hg']; exact hall
  · rw [hg']; exact hlast

theorem Map_trace_spec {σ T : Type} (S : List T) (mapFn : Nat → T → σ → T × σ)
    (yield : Yield σ (Nat × T)) (s : σ) :
    ∃ m : Nat, m ≤ S.length ∧
      (Map.trace S mapFn yield s).calls = S.enum.take m ∧
      (Map.trace S mapFn yield s).world = (Map S mapFn yield s).state ∧
      (Map.trace S mapFn yield s).given.map (fun p => p.1.1)
        = (Map.trace S mapFn yield s).calls.map Prod.fst ∧
      ((∀ p ∈ (Map.trace S mapFn yield s).given, p.2 = true) → m = S.length) ∧
      (∀ k r, (Map.trace S mapFn yield s).given.getLast? = some ((k, r), false) →
        k + 1 = m) := by
  obtain ⟨m, extra, hm, hc, hg, hw, hidx, hall, hlast⟩ :=
    Map_loop_traced mapFn yield S 0 ⟨s, [], []⟩
  have hg' : (Map.trace S mapFn yield s).given = extra := by
    simpa [Map.trace, Map, Outcome.state] using hg
  have hc' : (Map.trace S mapFn yield s).calls = S.enum.take m := by
    simpa [Map.trace, Map, Outcome.state, List.enum] using hc
  refine ⟨m, hm, hc', ?_, ?_, ?_, ?_⟩
  · simpa [Map.trace, Map, Outcome.state] using hw
  · rw [hg', hc', hidx, List.enum]
  · rw [hg']; exact hall
  · rw [hg']
    intro k r h
    have := hlast k r h
    omega

theorem Reverse_yieldIndex {T : Type} (seqs : List (List T)) (i p : Nat) (seq : List T)
    (h : seqs[i]? = some seq) (hp : p < seq.length) :
    seqs.flatten.reverse[yieldIndex seqs i p]? = seq[p]? := by
  have hi : i < seqs.length := (List.getElem?_eq_some_iff.mp h).1
  have hseq : seqs[i] = seq := (List.getElem?_eq_some_iff.mp h).2
  have hsplit : seqs = seqs.take i ++ seq :: seqs.drop (i + 1) := by
    rw [← hseq, ← List.drop_eq_getElem_cons hi, List.take_append_drop]
  have hflat : seqs.flatten.reverse
      = (seqs.drop (i + 1)).flatten.reverse ++ (seq.reverse ++ (seqs.take i).flatten.reverse) := by
    conv_lhs => rw [hsplit]
    simp only [List.flatten_append, List.flatten_cons, List.reverse_append, List.append_assoc]
  have hidx : yieldIndex seqs i p
      = (seqs.drop (i + 1)).flatten.reverse.length + (seq.length - 1 - p) := by
    simp only [yieldIndex, h, Option.getD_some, List.length_reverse]
  rw [hflat, hidx, List.getElem?_append_right (Nat.le_add_right _ _), Nat.add_sub_cancel_left,
    List.getElem?_append_left (by rw [List.length_reverse]; omega),
    List.getElem?_reverse (by omega)]
  congr 1
  omega

theorem yieldIndex_lt_of_lt {T : Type} (seqs : List (List T)) (i p q : Nat) (seq : List T)
    (h : seqs[i]? = some seq) (hpq : p < q) (hq : q < seq.length) :
    yieldIndex seqs i q < yieldIndex seqs i p := by
  simp only [yieldIndex, h, Option.getD_some]
  omega

theorem yieldIndex_lt_of_source_lt {T : Type} (seqs : List (List T)) (i j p q : Nat)
    (seq seq' : List T) (hi : seqs[i]? = some seq) (hj : seqs[j]? = some seq')
    (hij : i < j) (hp : p < seq.length) (hq : q < seq'.length) :
    yieldIndex seqs j q < yieldIndex seqs i p := by
  have hjlt : j < seqs.length := (List.getElem?_eq_some_iff.mp hj).1
  have hjseq : seqs[j] = seq' := (List.getElem?_eq_some_iff.mp hj).2
  have hdrop : seqs.drop (i + 1)
      = (seqs.drop (i + 1)).take (j - (i + 1)) ++ seq' :: seqs.drop (j + 1) := by
    have h1 : (seqs.drop (i + 1)).drop (j - (i + 1)) = seq' :: seqs.drop (j + 1) := by
      rw [List.drop_drop, show i + 1 + (j - (i + 1)) = j by omega,
        List.drop_eq_getElem_cons hjlt, hjseq]
    rw [← h1, List.take_append_drop]
  have hlen : (seqs.drop (j + 1)).flatten.length + seq'.length
      ≤ (seqs.drop (i + 1)).flatten.length := by
    conv_rhs => rw [hdrop]
    simp only [List.flatten_append, List.flatten_cons, List.length_append]
    omega
  simp only [yieldIndex, hi, hj, Option.getD_some]
  omega

theorem delivered_Shuffle {σ T : Type} (rnd : Nat → List (Nat × Nat)) (seq seq' : List T)
    (h : applySwaps (rnd seq.length) seq = (true, seq')) (yield : Yield σ T) (s : σ) :
    delivered (Shuffle.seq rnd seq) yield s = handed yield seq' s := by
  simp only [delivered, Shuffle.seq, Shuffle_eq rnd seq seq' h, Outcome.state, deliver_logging,
    List.nil_append]

theorem handed_stop_at_once {σ T : Type} (l : List T) (s : σ) :
    handed (fun _ (w : σ) => (false, w)) l s = l.take 1 := by
  cases l <;> rfl

theorem Choices_toFun_le {n : Nat} (c : Choices n) (j : Nat) : c.toFun j ≤ j := by
  unfold Choices.toFun
  split
  · exact Nat.lt_succ_iff.mp (c ⟨j, _⟩).isLt
  · exact Nat.zero_le _

theorem fisherYates_loop_mem (choice : Nat → Nat) (hc : ∀ j, choice j ≤ j) (i : Nat)
    (p : Nat × Nat) (hp : p ∈ fisherYates.loop choice i) : p.1 ≤ i ∧ p.2 ≤ i := by
  induction i with
  | zero => simp [fisherYates.loop] at hp
  | succ i ih =>
    simp only [fisherYates.loop, List.mem_cons] at hp
    rcases hp with rfl | hp
    · exact ⟨Nat.le_refl _, hc _⟩
    · exact ⟨Nat.le_succ_of_le (ih hp).1, Nat.le_succ_of_le (ih hp).2⟩

theorem fisherYates_in_range (choice : Nat → Nat) (hc : ∀ j, choice j ≤ j) (n : Nat)
    (p : Nat × Nat) (hp : p ∈ fisherYates choice n) : p.1 < n ∧ p.2 < n := by
  have h := fisherYates_loop_mem choice hc (n - 1) p hp
  have hn : 0 < n := by
    cases n with
    | zero => simp [fisherYates, fisherYates.loop] at hp
    | succ n => exact Nat.succ_pos n
  omega

theorem swapFunc_getElem?_of_ne {T : Type} (l l' : List T) (i j k : Nat)
    (h : swapFunc l i j = some l') (hi : k ≠ i) (hj : k ≠ j) : l'[k]? = l[k]? := by
  unfold swapFunc at h
  cases h1 : l[i]? with
  | none => simp [h1] at h
  | some a =>
    cases h2 : l[j]? with
    | none => simp [h1, h2] at h
    | some b =>
      simp only [h1, h2, Option.some.injEq] at h
      subst h
      rw [List.getElem?_set_ne (Ne.symm hj), List.getElem?_set_ne (Ne.symm hi)]

theorem swapFunc_getElem?_left {T : Type} (l l' : List T) (i j : Nat)
    (h : swapFunc l i j = some l') : l'[i]? = l[j]? := by
  unfold swapFunc at h
  cases h1 : l[i]? with
  | none => simp [h1] at h
  | some a =>
    cases h2 : l[j]? with
    | none => simp [h1, h2] at h
    | some b =>
      simp only [h1, h2, Option.some.injEq] at h
      subst h
      have hil : i < l.length := (List.getElem?_eq_some_iff.mp h1).1
      by_cases hij : i = j
      · subst hij
        rw [List.getElem?_set_self (by simpa using hil)]
        exact h1.symm.trans h2
      · rw [List.getElem?_set_ne (Ne.symm hij), List.getElem?_set_self hil]

theorem applySwaps_fisherYates_loop {T : Type} (choice : Nat → Nat) (hc : ∀ j, choice j ≤ j)
    (i : Nat) (l : List T) (hi : i ≤ l.length - 1) :
    ∃ l', applySwaps (fisherYates.loop choice i) l = (true, l') ∧ l'.Perm l ∧
      ∀ k, i < k → l'[k]? = l[k]? := by
  induction i generalizing l with
  | zero => exact ⟨l, rfl, List.Perm.refl _, fun _ _ => rfl⟩
  | succ i ih =>
    have hlt : i + 1 < l.length := by omega
    have hj := hc (i + 1)
    obtain ⟨l1, h1⟩ := swapFunc_isSome l (i + 1) (choice (i + 1)) hlt (by omega)
    have hperm1 := swapFunc_perm l l1 _ _ h1
    obtain ⟨l', h2, hperm2, hframe⟩ := ih l1 (by rw [hperm1.length_eq]; omega)
    refine ⟨l', ?_, hperm2.trans hperm1, fun k hk => ?_⟩
    · simp only [fisherYates.loop, applySwaps, h1, h2]
    · rw [hframe k (by omega)]
      exact swapFunc_getElem?_of_ne l l1 _ _ k h1 (by omega) (by omega)

theorem fisherYates_loop_inj {T : Type} (c c' : Nat → Nat) (hc : ∀ j, c j ≤ j)
    (hc' : ∀ j, c' j ≤ j) (i : Nat) (l : List T) (hl : l.Nodup) (hi : i ≤ l.length - 1)
    (heq : (applySwaps (fisherYates.loop c i) l).2 = (applySwaps (fisherYates.loop c' i) l).2) :
    ∀ j, 1 ≤ j → j ≤ i → c j = c' j := by
  induction i generalizing l with
  | zero => intro j h1 h0; omega
  | succ i ih =>
    have hlt : i + 1 < l.length := by omega
    have hj := hc (i + 1)
    have hj' := hc' (i + 1)
    obtain ⟨l1, h1⟩ := swapFunc_isSome l (i + 1) (c (i + 1)) hlt (by omega)
    obtain ⟨l1', h1'⟩ := swapFunc_isSome l (i + 1) (c' (i + 1)) hlt (by omega)
    have hperm1 := swapFunc_perm l l1 _ _ h1
    have hperm1' := swapFunc_perm l l1' _ _ h1'
    obtain ⟨f, h2, -, hframe⟩ :=
      applySwaps_fisherYates_loop c hc i l1 (by rw [hperm1.length_eq]; omega)
    obtain ⟨f', h2', -, hframe'⟩ :=
      applySwaps_fisherYates_loop c' hc' i l1' (by rw [hperm1'.length_eq]; omega)
    have hff : f = f' := by
      simpa only [fisherYates.loop, applySwaps, h1, h1', h2, h2'] using heq
    have htop : l[c (i + 1)]? = l[c' (i + 1)]? := by
      rw [← swapFunc_getElem?_left l l1 _ _ h1, ← swapFunc_getElem?_left l l1' _ _ h1',
        ← hframe (i + 1) (Nat.lt_succ_self i), ← hframe' (i + 1) (Nat.lt_succ_self i), hff]
    have hcc : c (i + 1) = c' (i + 1) := by
      have ha : c (i + 1) < l.length := by omega
      have hb : c' (i + 1) < l.length := by omega
      rw [List.getElem?_eq_getElem ha, List.getElem?_eq_getElem hb, Option.some.injEq] at htop
      exact (hl.getElem_inj_iff).mp htop
    have hl1 : l1 = l1' := by
      rw [hcc] at h1
      exact Option.some.inj (h1.symm.trans h1')
    have hrest := ih l1 ((hperm1.nodup_iff).mpr hl) (by rw [hperm1.length_eq]; omega)
      (by rw [h2, hl1, h2', hff])
    intro j hj1 hji
    by_cases hlast : j = i + 1
    · rw [hlast, hcc]
    · exact hrest j hj1 (by omega)

theorem Choices_ext_of_toFun {n : Nat} (c c' : Choices n)
    (h : ∀ j, 1 ≤ j → j ≤ n - 1 → c.toFun j = c'.toFun j) : c = c' := by
  funext i
  apply Fin.ext
  by_cases h0 : i.val = 0
  · have h1 := (c i).isLt
    have h2 := (c' i).isLt
    omega
  · have := h i.val (by omega) (by have := i.isLt; omega)
    simpa [Choices.toFun, i.isLt] using this

theorem Choices_card (n : Nat) : Fintype.card (Choices n) = n.factorial := by
  rw [Fintype.card_pi]
  simp only [Fintype.card_fin]
  rw [Fin.prod_univ_eq_prod_range (fun i => i + 1) n, Finset.prod_range_add_one_eq_factorial]

theorem collect_Shuffle_fisherYates {T : Type} {n : Nat} (c : Choices n) (S : List T) :
    ∃ out, applySwaps (fisherYates c.toFun S.length) S = (true, out) ∧ out.Perm S ∧
      collect (Shuffle.seq (fisherYates c.toFun) S) = .returned out := by
  obtain ⟨out, h1, hperm⟩ := applySwaps_perm (fisherYates c.toFun S.length) S
    (fun p hp => fisherYates_in_range c.toFun (Choices_toFun_le c) S.length p hp)
  refine ⟨out, h1, hperm, ?_⟩
  simp [collect, Shuffle.seq, Shuffle_eq (fisherYates c.toFun) S out h1, deliver_collect]

theorem Shuffle_fisherYates_injective {T : Type} (S : List T) (hS : S.Nodup)
    (c c' : Choices S.length)
    (h : collect (Shuffle.seq (fisherYates c.toFun) S)
      = collect (Shuffle.seq (fisherYates c'.toFun) S)) : c = c' := by
  obtain ⟨out, h1, -, h2⟩ := collect_Shuffle_fisherYates c S
  obtain ⟨out', h1', -, h2'⟩ := collect_Shuffle_fisherYates c' S
  have hout : out = out' := by
    rw [h2, h2'] at h
    exact Outcome.returned.inj h
  apply Choices_ext_of_toFun
  exact fisherYates_loop_inj c.toFun c'.toFun (Choices_toFun_le c) (Choices_toFun_le c')
    (S.length - 1) S hS (Nat.le_refl _) (by
      have e1 : applySwaps (fisherYates.loop c.toFun (S.length - 1)) S = (true, out) := h1
      have e2 : applySwaps (fisherYates.loop c'.toFun (S.length - 1)) S = (true, out') := h1'
      rw [e1, e2, hout])

theorem Shuffle_fisherYates_surjective {T : Type} (S : List T) (hS : S.Nodup) (out : List T)
    (hout : out.Perm S) :
    ∃ c : Choices S.length, collect (Shuffle.seq (fisherYates c.toFun) S) = .returned out := by
  classical
  let Φ : Choices S.length → List T := fun c => (applySwaps (fisherYates c.toFun S.length) S).2
  have hΦ : ∀ c, collect (Shuffle.seq (fisherYates c.toFun) S) = .returned (Φ c) := by
    intro c
    obtain ⟨o, h1, -, h2⟩ := collect_Shuffle_fisherYates c S
    have : Φ c = o := by simp only [Φ, h1]
    rw [this, h2]
  have hinj : Function.Injective Φ := by
    intro c c' h
    apply Shuffle_fisherYates_injective S hS
    rw [hΦ, hΦ, h]
  have hsub : Finset.univ.image Φ ⊆ S.permutations.toFinset := by
    intro o ho
    obtain ⟨c, -, rfl⟩ := Finset.mem_image.mp ho
    obtain ⟨o', h1, hperm, -⟩ := collect_Shuffle_fisherYates c S
    have : Φ c = o' := by simp only [Φ, h1]
    rw [List.mem_toFinset, List.mem_permutations, this]
    exact hperm
  have hcard : S.permutations.toFinset.card ≤ (Finset.univ.image Φ).card := by
    rw [Finset.card_image_of_injective _ hinj, Finset.card_univ, Choices_card,
      List.toFinset_card_of_nodup (List.nodup_permutations S hS), List.length_permutations]
  have heq := Finset.eq_of_subset_of_card_le hsub hcard
  have hmem : out ∈ Finset.univ.image Φ := by
    rw [heq, List.mem_toFinset, List.mem_permutations]
    exact hout
  obtain ⟨c, -, hc⟩ := Finset.mem_image.mp hmem
  exact ⟨c, by rw [hΦ, hc]⟩

theorem Gen_run_misused {σ T : Type} (yield : Yield σ T) (g : Gen T) (s : σ) :
    g.run (σ × RangeState) (rangeBody yield) (s, .misused) = .returned (s, .misused) := by
  induction g with
  | ret => rfl
  | call v k ih =>
    rw [Gen_run_call]
    exact ih false

theorem rangeFunc_call_true {σ T : Type} (yield : Yield σ T) (v : T) (k : Bool → Gen T)
    (s s' : σ) (hy : yield v s = (true, s')) :
    rangeFunc (Gen.call v k).run yield s = rangeFunc (k true).run yield s' := by
  have hb : rangeBody yield v (s, .ready) = (true, (s', .ready)) := by
    simp only [rangeBody, hy]
  simp only [rangeFunc]
  rw [Gen_run_call, hb]

theorem rangeFunc_call_false {σ T : Type} (yield : Yield σ T) (v : T) (k : Bool → Gen T)
    (s s' : σ) (hy : yield v s = (false, s')) :
    rangeFunc (Gen.call v k).run yield s =
      match k false with
      | .ret => .ret s'
      | .call _ _ => .panic s' := by
  have hb : rangeBody yield v (s, .ready) = (false, (s', .done)) := by
    simp only [rangeBody, hy]
  simp only [rangeFunc]
  rw [Gen_run_call, hb]
  cases hk : k false with
  | ret => rfl
  | call v2 k2 =>
    have hb2 : rangeBody yield v2 (s', .done) = (false, (s', .misused)) := rfl
    rw [Gen_run_call, hb2, Gen_run_misused]

theorem rangeFuncF_yield_true {σ T : Type} (Q : Source T) (yield : Yield σ T) (n : Nat)
    (q : Q.State) (s s' : σ) (v : T) (k : Bool → Q.State) (hq : Q.step q = some (v, k))
    (hy : yield v s = (true, s')) :
    rangeFuncF Q yield (n + 1) q .ready s = rangeFuncF Q yield n (k true) .ready s' := by
  simp only [rangeFuncF, hq, hy]

theorem rangeFuncF_yield_false {σ T : Type} (Q : Source T) (yield : Yield σ T) (n : Nat)
    (q : Q.State) (s s' : σ) (v : T) (k : Bool → Q.State) (hq : Q.step q = some (v, k))
    (hy : yield v s = (false, s')) :
    rangeFuncF Q yield (n + 1) q .ready s = rangeFuncF Q yield n (k false) .done s' := by
  simp only [rangeFuncF, hq, hy]

theorem rangeFuncF_done {σ T : Type} (Q : Source T) (yield : Yield σ T) (n : Nat)
    (q : Q.State) (s : σ) :
    rangeFuncF Q yield (n + 1) q .done s = .ended (.ret s) n ∨
      rangeFuncF Q yield (n + 1) q .done s = .ended (.panic s) n := by
  cases hq : Q.step q with
  | none => exact Or.inl (by simp only [rangeFuncF, hq])
  | some p => exact Or.inr (by simp only [rangeFuncF, hq])

theorem rangeFuncF_ofGen {σ T : Type} (yield : Yield σ T) (g0 g : Gen T) (s : σ) :
    ∃ m, ∀ extra,
      rangeFuncF (Source.ofGen g0) yield (extra + m) g .ready s
        = .ended (rangeFunc g.run yield s) extra := by
  induction g generalizing s with
  | ret => exact ⟨1, fun extra => rfl⟩
  | call v k ih =>
    rcases hy : yield v s with ⟨c, s'⟩
    cases c
    · refine ⟨2, fun extra => ?_⟩
      rw [rangeFunc_call_false yield v k s s' hy]
      have h1 : rangeFuncF (Source.ofGen g0) yield (extra + 2) (Gen.call v k) .ready s
          = rangeFuncF (Source.ofGen g0) yield (extra + 1) (k false) .done s' := by
        simp only [rangeFuncF, Source.ofGen, hy]
      rw [h1]
      cases hk : k false with
      | ret => simp only [rangeFuncF, Source.ofGen, hk]
      | call v2 k2 => simp only [rangeFuncF, Source.ofGen, hk]
    · obtain ⟨m, hm⟩ := ih true s'
      refine ⟨m + 1, fun extra => ?_⟩
      rw [rangeFunc_call_true yield v k s s' hy, ← hm extra]
      exact rangeFuncF_yield_true (Source.ofGen g0) yield (extra + m) (Gen.call v k) s s' v k
        rfl hy

theorem ConcatIterF_loop_ofGen {σ T : Type} (yield : Yield σ T) (gs : List (Gen T)) (s : σ) :
    ∃ m, ∀ extra,
      ConcatIterF.loop yield (gs.map Source.ofGen) (extra + m) s
        = .finished (ConcatIter.loop yield (gs.map Gen.run) s) := by
  induction gs generalizing s with
  | nil => exact ⟨0, fun extra => rfl⟩
  | cons g rest ih =>
    obtain ⟨m1, h1⟩ := rangeFuncF_ofGen yield g g s
    cases hf : rangeFunc g.run yield s with
    | next s' =>
      obtain ⟨m2, h2⟩ := ih s'
      refine ⟨m2 + m1, fun extra => ?_⟩
      have h1' := h1 (extra + m2)
      rw [hf] at h1'
      simp only [List.map_cons, ConcatIterF.loop, ConcatIter.loop, hf, ← Nat.add_assoc]
      have e : (Source.ofGen g).init = g := rfl
      rw [e, h1']
      exact h2 extra
    | ret s' =>
      refine ⟨m1, fun extra => ?_⟩
      have h1' := h1 extra
      rw [hf] at h1'
      simp only [List.map_cons, ConcatIterF.loop, ConcatIter.loop, hf]
      have e : (Source.ofGen g).init = g := rfl
      rw [e, h1']
    | panic s' =>
      refine ⟨m1, fun extra => ?_⟩
      have h1' := h1 extra
      rw [hf] at h1'
      simp only [List.map_cons, ConcatIterF.loop, ConcatIter.loop, hf]
      have e : (Source.ofGen g).init = g := rfl
      rw [e, h1']

theorem rangeSlice_append {σ T : Type} (yield : Yield σ T) (a b : List T) (s : σ) :
    rangeSlice yield (a ++ b) s =
      match rangeSlice yield a s with
      | (true, s') => rangeSlice yield b s'
      | (false, s') => (false, s') := by
  induction a generalizing s with
  | nil => rfl
  | cons v rest ih =>
    simp only [List.cons_append, rangeSlice]
    rcases h : yield v s with ⟨c, s'⟩
    cases c
    · rfl
    · exact ih s'

theorem rangeSlice_stop_append {σ T : Type} (yield : Yield σ T) (a b : List T) (s : σ)
    (h : (rangeSlice yield a s).1 = false) :
    rangeSlice yield (a ++ b) s = rangeSlice yield a s := by
  rw [rangeSlice_append]
  rcases hr : rangeSlice yield a s with ⟨c, s'⟩
  rw [hr] at h
  simp only at h
  subst h
  rfl

theorem handed_stop_append {σ T : Type} (yield : Yield σ T) (a b : List T) (s : σ)
    (h : (rangeSlice yield a s).1 = false) :
    handed yield (a ++ b) s = handed yield a s := by
  induction a generalizing s with
  | nil => simp [rangeSlice] at h
  | cons v rest ih =>
    simp only [List.cons_append, handed]
    simp only [rangeSlice] at h
    rcases hy : yield v s with ⟨c, s'⟩
    rw [hy] at h
    cases c
    · rfl
    · simp only at h
      exact congrArg (v :: ·) (ih s' h)

theorem rangeSlice_logging_fst {σ T : Type} (yield : Yield σ T) (l : List T) (s : σ)
    (log : List T) :
    (rangeSlice (logging yield) l (s, log)).1 = (rangeSlice yield l s).1 := by
  induction l generalizing s log with
  | nil => rfl
  | cons v rest ih =>
    simp only [rangeSlice, logging]
    rcases hy : yield v s with ⟨c, s'⟩
    cases c
    · rfl
    · exact ih s' _

theorem ConcatIterF_loop_pre_pass {σ T : Type} (yield : Yield σ T) (pre : List (Gen T))
    (rest : List (Source T)) (s s' : σ)
    (h : rangeSlice yield (pre.map Gen.output).flatten s = (true, s')) :
    ∃ m, ∀ extra,
      ConcatIterF.loop yield (pre.map Source.ofGen ++ rest) (extra + m) s
        = ConcatIterF.loop yield rest extra s' := by
  induction pre generalizing s with
  | nil =>
    have : s = s' := by simpa [rangeSlice] using h
    subst this
    exact ⟨0, fun extra => rfl⟩
  | cons g pre ih =>
    rw [List.map_cons, List.flatten_cons, rangeSlice_append] at h
    have hrun := rangeFunc_run yield g s
    rcases hr : rangeSlice yield g.output s with ⟨c, s1⟩
    rw [hr] at h hrun
    cases c
    · simp at h
    · simp only at h hrun
      obtain ⟨m1, h1⟩ := rangeFuncF_ofGen yield g g s
      obtain ⟨m2, h2⟩ := ih s1 h
      refine ⟨m2 + m1, fun extra => ?_⟩
      have h1' := h1 (extra + m2)
      rw [hrun] at h1'
      have e : (Source.ofGen g).init = g := rfl
      simp only [List.map_cons, List.cons_append, ConcatIterF.loop, ← Nat.add_assoc]
      rw [e, h1']
      exact h2 extra

theorem ConcatIterF_loop_pre_stop {σ T : Type} (yield : Yield σ T) (pre : List (Gen T))
    (rest : List (Source T)) (s s' : σ)
    (h : rangeSlice yield (pre.map Gen.output).flatten s = (false, s')) :
    ∃ m, ∀ extra, ∃ o,
      ConcatIterF.loop yield (pre.map Source.ofGen ++ rest) (extra + m) s = .finished o ∧
        o.state = s' := by
  induction pre generalizing s with
  | nil => simp [rangeSlice] at h
  | cons g pre ih =>
    rw [List.map_cons, List.flatten_cons, rangeSlice_append] at h
    have hrun := rangeFunc_run yield g s
    rcases hr : rangeSlice yield g.output s with ⟨c, s1⟩
    rw [hr] at h hrun
    obtain ⟨m1, h1⟩ := rangeFuncF_ofGen yield g g s
    have e : (Source.ofGen g).init = g := rfl
    cases c
    · simp only [Prod.mk.injEq, true_and] at h
      subst h
      simp only at hrun
      refine ⟨m1, fun extra => ?_⟩
      have h1' := h1 extra
      rcases hrun with hrun | hrun
      · rw [hrun] at h1'
        refine ⟨.returned s1, ?_, rfl⟩
        simp only [List.map_cons, List.cons_append, ConcatIterF.loop]
        rw [e, h1']
      · rw [hrun] at h1'
        refine ⟨.panicked s1, ?_, rfl⟩
        simp only [List.map_cons, List.cons_append, ConcatIterF.loop]
        rw [e, h1']
    · simp only at h hrun
      obtain ⟨m2, h2⟩ := ih s1 h
      refine ⟨m2 + m1, fun extra => ?_⟩
      have h1' := h1 (extra + m2)
      rw [hrun] at h1'
      simp only [List.map_cons, List.cons_append, ConcatIterF.loop, ← Nat.add_assoc]
      rw [e, h1']
      exact h2 extra

theorem rangeFuncF_stop {σ T : Type} (Q : Source T) (yield : Yield σ T) (k : Nat)
    (q : Q.State) (s : σ) (h : (rangeSlice yield (Q.take k q) s).1 = false) :
    ∃ m, ∀ extra,
      rangeFuncF Q yield (extra + m) q .ready s
          = .ended (.ret (deliver yield (Q.take k q) s)) extra ∨
        rangeFuncF Q yield (extra + m) q .ready s
          = .ended (.panic (deliver yield (Q.take k q) s)) extra := by
  induction k generalizing q s with
  | zero => simp [Source.take, rangeSlice] at h
  | succ k ih =>
    cases hq : Q.step q with
    | none => simp [Source.take, hq, rangeSlice] at h
    | some p =>
      obtain ⟨v, kk⟩ := p
      have htake : Q.take (k + 1) q = v :: Q.take k (kk true) := by
        simp only [Source.take, hq]
      rw [htake] at h ⊢
      simp only [rangeSlice] at h
      simp only [deliver]
      rcases hy : yield v s with ⟨c, s'⟩
      rw [hy] at h
      cases c
      · refine ⟨2, fun extra => ?_⟩
        rw [show extra + 2 = (extra + 1) + 1 from rfl,
          rangeFuncF_yield_false Q yield (extra + 1) q s s' v kk hq hy]
        exact rangeFuncF_done Q yield extra (kk false) s'
      · simp only at h
        obtain ⟨m, hm⟩ := ih (kk true) s' h
        refine ⟨m + 1, fun extra => ?_⟩
        rw [show extra + (m + 1) = (extra + m) + 1 from rfl,
          rangeFuncF_yield_true Q yield (extra + m) q s s' v kk hq hy]
        exact hm extra

theorem rangeFuncF_never_next {σ T : Type} (Q : Source T) (yield : Yield σ T) (fuel : Nat)
    (q : Q.State) (s : σ) (hq : ∀ n, (Q.take n q).length = n) (s' : σ) (fuel' : Nat) :
    rangeFuncF Q yield fuel q .ready s ≠ .ended (.next s') fuel' := by
  induction fuel generalizing q s with
  | zero => simp [rangeFuncF]
  | succ fuel ih =>
    cases hstep : Q.step q with
    | none =>
      have := hq 1
      simp [Source.take, hstep] at this
    | some p =>
      obtain ⟨v, kk⟩ := p
      rcases hy : yield v s with ⟨c, s1⟩
      cases c
      · rw [rangeFuncF_yield_false Q yield fuel q s s1 v kk hstep hy]
        cases fuel with
        | zero => simp [rangeFuncF]
        | succ n =>
          rcases rangeFuncF_done Q yield n (kk false) s1 with h | h <;> rw [h] <;> simp
      · rw [rangeFuncF_yield_true Q yield fuel q s s1 v kk hstep hy]
        apply ih
        intro n
        have := hq (n + 1)
        simpa [Source.take, hstep] using this

theorem rangeFuncF_of_true {σ T : Type} (Q : Source T) (yield : Yield σ T)
    (hy : ∀ v s, (yield v s).1 = true) (fuel : Nat) (q : Q.State) (s : σ) :
    (∃ s', rangeFuncF Q yield fuel q .ready s = .running s') ∨
      ∃ s' fuel', rangeFuncF Q yield fuel q .ready s = .ended (.next s') fuel' := by
  induction fuel generalizing q s with
  | zero => exact Or.inl ⟨s, rfl⟩
  | succ fuel ih =>
    cases hstep : Q.step q with
    | none => exact Or.inr ⟨s, fuel, by simp only [rangeFuncF, hstep]⟩
    | some p =>
      obtain ⟨v, kk⟩ := p
      rcases hyv : yield v s with ⟨c, s1⟩
      have hc : c = true := by simpa [hyv] using hy v s
      subst hc
      rw [rangeFuncF_yield_true Q yield fuel q s s1 v kk hstep hyv]
      exact ih (kk true) s1

theorem ConcatIterF_loop_ignore_later {σ T : Type} (yield : Yield σ T)
    (before : List (Source T)) (Q : Source T) (hQ : Q.NeverReturns) (later : List (Source T))
    (fuel : Nat) (s : σ) :
    ConcatIterF.loop yield (before ++ Q :: later) fuel s
      = ConcatIterF.loop yield (before ++ [Q]) fuel s := by
  induction before generalizing fuel s with
  | nil =>
    simp only [List.nil_append, ConcatIterF.loop]
    cases hr : rangeFuncF Q yield fuel Q.init .ready s with
    | running s' => rfl
    | ended f fuel' =>
      cases f with
      | next s' => exact absurd hr (rangeFuncF_never_next Q yield fuel Q.init s hQ s' fuel')
      | ret s' => rfl
      | panic s' => rfl
  | cons P before ih =>
    simp only [List.cons_append, ConcatIterF.loop]
    cases hr : rangeFuncF P yield fuel P.init .ready s with
    | running s' => rfl
    | ended f fuel' =>
      cases f with
      | next s' => exact ih fuel' s'
      | ret s' => rfl
      | panic s' => rfl

theorem ConcatIterF_loop_blocked {σ T : Type} (yield : Yield σ T)
    (hy : ∀ v s, (yield v s).1 = true) (before : List (Source T)) (Q : Source T)
    (hQ : Q.NeverReturns) (later : List (Source T)) (fuel : Nat) (s : σ) :
    ∃ s', ConcatIterF.loop yield (before ++ Q :: later) fuel s = .running s' := by
  induction before generalizing fuel s with
  | nil =>
    simp only [List.nil_append, ConcatIterF.loop]
    rcases rangeFuncF_of_true Q yield hy fuel Q.init s with ⟨s', h⟩ | ⟨s', fuel', h⟩
    · exact ⟨s', by rw [h]⟩
    · exact absurd h (rangeFuncF_never_next Q yield fuel Q.init s hQ s' fuel')
  | cons P before ih =>
    simp only [List.cons_append, ConcatIterF.loop]
    rcases rangeFuncF_of_true P yield hy fuel P.init s with ⟨s', h⟩ | ⟨s', fuel', h⟩
    · exact ⟨s', by rw [h]⟩
    · rw [h]
      exact ih fuel' s'

theorem ConcatIterF_loop_stop {σ T : Type} (yield : Yield σ T) (pre : List (Gen T))
    (Q : Source T) (post : List (Source T)) (s : σ) (k : Nat)
    (h : (rangeSlice yield (firstOutputs pre Q k) s).1 = false) :
    ∃ m, ∀ extra, ∃ o,
      ConcatIterF.loop yield (pre.map Source.ofGen ++ Q :: post) (extra + m) s = .finished o ∧
        o.state = deliver yield (firstOutputs pre Q k) s := by
  have hsplit : (pre.map Gen.output).flatten ++ Q.take k Q.init
      = firstOutputs pre Q k ++ ((pre.map Gen.output).flatten ++ Q.take k Q.init).drop k := by
    rw [firstOutputs, List.take_append_drop]
  have hM : rangeSlice yield ((pre.map Gen.output).flatten ++ Q.take k Q.init) s
      = rangeSlice yield (firstOutputs pre Q k) s := by
    rw [hsplit]
    exact rangeSlice_stop_append yield _ _ s h
  have hfst : (rangeSlice yield ((pre.map Gen.output).flatten ++ Q.take k Q.init) s).1 = false := by
    rw [hM]; exact h
  have hdel : deliver yield (firstOutputs pre Q k) s
      = deliver yield ((pre.map Gen.output).flatten ++ Q.take k Q.init) s := by
    rw [← rangeSlice_snd, ← rangeSlice_snd, hM]
  rw [hdel, deliver_append]
  rw [rangeSlice_append] at hfst
  rcases hr : rangeSlice yield (pre.map Gen.output).flatten s with ⟨c, s1⟩
  rw [hr] at hfst
  cases c
  · exact ConcatIterF_loop_pre_stop yield pre (Q :: post) s s1 hr
  · simp only at hfst ⊢
    obtain ⟨m1, h1⟩ := ConcatIterF_loop_pre_pass yield pre (Q :: post) s s1 hr
    obtain ⟨m2, h2⟩ := rangeFuncF_stop Q yield k Q.init s1 hfst
    refine ⟨m2 + m1, fun extra => ?_⟩
    rw [← Nat.add_assoc, h1 (extra + m2)]
    rcases h2 extra with h2 | h2
    · exact ⟨.returned _, by simp only [ConcatIterF.loop, h2], rfl⟩
    · exact ⟨.panicked _, by simp only [ConcatIterF.loop, h2], rfl⟩

theorem deliveredF_stop {σ T : Type} (yield : Yield σ T) (pre : List (Gen T))
    (Q : Source T) (post : List (Source T)) (s : σ) (k : Nat)
    (h : (rangeSlice yield (firstOutputs pre Q k) s).1 = false) :
    ∃ m, ∀ extra,
      deliveredF (pre.map Source.ofGen ++ Q :: post) yield (extra + m) s
        = handed yield (firstOutputs pre Q k) s := by
  have h' : (rangeSlice (logging yield) (firstOutputs pre Q k) (s, [])).1 = false := by
    rw [rangeSlice_logging_fst]; exact h
  obtain ⟨m, hm⟩ := ConcatIterF_loop_stop (logging yield) pre Q post (s, []) k h'
  refine ⟨m, fun extra => ?_⟩
  obtain ⟨o, ho, hst⟩ := hm extra
  simp only [deliveredF, ConcatIterF, ho, Progress.state, hst, deliver_logging, List.nil_append]

theorem firstOutputs_length {T : Type} (pre : List (Gen T)) (Q : Source T)
    (hQ : Q.NeverReturns) (k : Nat) : (firstOutputs pre Q k).length = k := by
  simp only [firstOutputs, List.length_take, List.length_append, hQ k]
  omega

theorem Source_ofStream_take_length {T : Type} (f : Nat → T) (n i : Nat) :
    ((Source.ofStream f).take n (some i)).length = n := by
  induction n generalizing i with
  | zero => rfl
  | succ n ih =>
    have : (Source.ofStream f).take (n + 1) (some i)
        = f i :: (Source.ofStream f).take n (some (i + 1)) := rfl
    rw [this, List.length_cons, ih]

theorem Source_ofStream_neverReturns {T : Type} (f : Nat → T) :
    (Source.ofStream f).NeverReturns :=
  fun n => Source_ofStream_take_length f n 0

theorem stopOn_spec {T : Type} (k : Nat) (l : List T) (n : Nat) (hl : l ≠ [])
    (h : n + l.length = k) :
    (rangeSlice (stopOn k) l n).1 = false ∧ handed (stopOn k) l n = l := by
  induction l generalizing n with
  | nil => exact absurd rfl hl
  | cons v rest ih =>
    cases rest with
    | nil =>
      have hk : ¬ (n + 1 < k) := by simp at h; omega
      simp [rangeSlice, handed, stopOn, hk]
    | cons w rest' =>
      have hk : n + 1 < k := by simp at h; omega
      have hy : stopOn k v n = (true, n + 1) := by simp [stopOn, hk]
      obtain ⟨h1, h2⟩ := ih (n + 1) (by simp) (by simp at h ⊢; omega)
      constructor
      · have e : rangeSlice (stopOn k) (v :: w :: rest') n
            = rangeSlice (stopOn k) (w :: rest') (n + 1) := by
          rw [rangeSlice, hy]
        rw [e]; exact h1
      · have e : handed (stopOn k) (v :: w :: rest') n
            = v :: handed (stopOn k) (w :: rest') (n + 1) := by
          rw [handed, hy]
        rw [e, h2]

theorem deliveredF_stopOn {T : Type} (pre : List (Gen T)) (Q : Source T)
    (hQ : Q.NeverReturns) (post : List (Source T)) (k : Nat) (hk : 0 < k) :
    ∃ m, ∀ extra,
      deliveredF (pre.map Source.ofGen ++ Q :: post) (stopOn k) (extra + m) 0
        = firstOutputs pre Q k := by
  have hlen := firstOutputs_length pre Q hQ k
  have hne : firstOutputs pre Q k ≠ [] := by
    intro h
    rw [h] at hlen
    simp at hlen
    omega
  obtain ⟨h1, h2⟩ := stopOn_spec k (firstOutputs pre Q k) 0 hne (by omega)
  obtain ⟨m, hm⟩ := deliveredF_stop (stopOn k) pre Q post 0 k h1
  exact ⟨m, fun extra => by rw [hm extra, h2]⟩

/-! ## The claims -/

/-- C1. Collecting the sequence returned by `Concat(A1..An)` to completion
gives exactly the list concatenation `A1 ++ A2 ++ ... ++ An`, for every list of
slices, the empty list and empty slices included. -/
theorem Concat_collect {T : Type} (seqs : List (List T)) :
    collect (Concat seqs) = .returned seqs.flatten :=
  collect_Concat seqs

/-- C2. Collecting the sequence returned by `Reverse(A1..An)` to completion
gives exactly the reverse of the list collected from `Concat(A1..An)`: for
every list of slices there is a list `out` that `Concat` yields and whose
reverse `Reverse` yields, and that list is `A1 ++ ... ++ An`.  The examples of
the documentation and of the tests are instances. -/
theorem Reverse_collect :
    (∀ (T : Type) (seqs : List (List T)),
      ∃ out : List T, collect (Concat seqs) = .returned out ∧
        collect (Reverse seqs) = .returned out.reverse ∧ out = seqs.flatten) ∧
    collect (Reverse [[1, 2, 3], [7, 8, 9]]) = .returned [9, 8, 7, 3, 2, 1] ∧
    collect (Reverse [[10, 20, 30], [40, 50, 60]]) = .returned [60, 50, 40, 30, 20, 10] := by
  refine ⟨fun T seqs => ⟨seqs.flatten, collect_Concat seqs, collect_Reverse seqs, rfl⟩, ?_, ?_⟩
  · decide
  · decide

/-- C3. Collecting the sequence returned by `Filter(S, pred)` to completion
gives exactly the standard list filter of `S` by `pred`: the elements on which
`pred` is true, with multiplicity and in their original relative order.  The
example `Filter([1,2,3,7,8,9], isEven) = [2,8]` is an instance. -/
theorem Filter_collect :
    (∀ (T : Type) (S : List T) (pred : T → Bool),
      collect (FilterSeq S pred) = .returned (S.filter pred)) ∧
    collect (FilterSeq [1, 2, 3, 7, 8, 9] (fun v => v % 2 == 0)) = .returned [2, 8] :=
  ⟨fun _ S pred => collect_FilterSeq S pred, by decide⟩

/-- C4. Collecting the sequence returned by `Map(S, f)` to completion gives
exactly the pairs `(i, f(i, S[i]))` for `i = 0 .. len(S) - 1` in that order: the
output has the length of `S` and its `i`-th pair carries the original index
`i` and `f` applied to the original index and the original element.  The
example `Map([1,2,3], (i,v) => v*2) = [(0,2),(1,4),(2,6)]` is an instance. -/
theorem Map_collect :
    (∀ (T : Type) (S : List T) (f : Nat → T → T),
      ∃ out : List (Nat × T), collect (MapSeq S f) = .returned out ∧
        out.length = S.length ∧
        ∀ i : Fin S.length, out[i.val]? = some (i.val, f i.val (S.get i))) ∧
    collect (MapSeq [1, 2, 3] (fun _ v => v * 2)) = .returned [(0, 2), (1, 4), (2, 6)] := by
  refine ⟨fun T S f => ⟨_, collect_MapSeq S f, by simp, fun i => ?_⟩, by decide⟩
  simp [List.enum, List.getElem?_enumFrom, List.getElem?_eq_getElem i.isLt]

/-- C5. `Reduce` returns the left fold
`reducer(...reducer(reducer(init, x1), x2)..., xn)` of the sequence it is
given, the accumulator being the first argument of the reducer and the current
element the second: for every terminating iterator function with full output
`[x1, ..., xn]`, and so for the value iterator of every slice.  On the empty
sequence it returns `init`; with `+` and `0` over `[1,2,3,7,8,9]` it returns
`30`, and with `-` and `40` it returns `10`. -/
theorem Reduce_foldl :
    (∀ (T : Type) (g : Gen T) (reducer : T → T → T) (init : T),
      Reduce g.run reducer init = some (g.output.foldl reducer init)) ∧
    (∀ (T : Type) (xs : List T) (reducer : T → T → T) (init : T),
      Reduce (Values xs) reducer init = some (xs.foldl reducer init)) ∧
    (∀ (T : Type) (reducer : T → T → T) (init : T),
      Reduce (Values []) reducer init = some init ∧
        Reduce Gen.ret.run reducer init = some init) ∧
    Reduce (Values [1, 2, 3, 7, 8, 9]) (fun (a b : Int) => a + b) 0 = some 30 ∧
    Reduce (Values [1, 2, 3, 7, 8, 9]) (fun (a b : Int) => a - b) 40 = some 10 :=
  ⟨fun _ g r i => Reduce_run g r i, fun _ xs r i => Reduce_Values xs r i,
    fun _ _ _ => ⟨rfl, rfl⟩, by decide, by decide⟩

/-- C6. `ForEach(S, fn)` invokes `fn` exactly once per element of the
sequence, in order, with the zero-based index kept by `ForEach` itself: for
every terminating iterator function with full output `[x0, ..., x(n-1)]` (and
so for the value iterator of every slice) the effect on the caller's world is
that of the calls `fn(0, x0), fn(1, x1), ..., fn(n-1, x(n-1))` made in this
order, and the trace of a recording callback has length `n` and the entry
`(k, xk)` at every position `k`. -/
theorem ForEach_trace :
    (∀ (T ω : Type) (g : Gen T) (fn : Nat → T → ω → ω) (w : ω),
      ForEach g.run fn w = .returned (g.output.enum.foldl (fun w p => fn p.1 p.2 w) w)) ∧
    (∀ (T ω : Type) (xs : List T) (fn : Nat → T → ω → ω) (w : ω),
      ForEach (Values xs) fn w = .returned (xs.enum.foldl (fun w p => fn p.1 p.2 w) w)) ∧
    (∀ (T : Type) (g : Gen T),
      ∃ calls : List (Nat × T), ForEach g.run record [] = .returned calls ∧
        calls.length = g.output.length ∧
        ∀ k : Fin g.output.length, calls[k.val]? = some (k.val, g.output.get k)) ∧
    (∀ (T : Type) (xs : List T),
      ∃ calls : List (Nat × T), ForEach (Values xs) record [] = .returned calls ∧
        calls.length = xs.length ∧
        ∀ k : Fin xs.length, calls[k.val]? = some (k.val, xs.get k)) := by
  refine ⟨fun _ _ g fn w => ForEach_run g fn w, fun _ _ xs fn w => ForEach_Values xs fn w,
    fun T g => ⟨g.output.enum, ?_, by simp, fun k => ?_⟩,
    fun T xs => ⟨xs.enum, ?_, by simp, fun k => ?_⟩⟩
  · rw [ForEach_run, foldl_record, List.nil_append]
  · simp [List.enum, List.getElem?_enumFrom, List.getElem?_eq_getElem k.isLt]
  · rw [ForEach_Values, foldl_record, List.nil_append]
  · simp [List.enum, List.getElem?_enumFrom, List.getElem?_eq_getElem k.isLt]

/-- C7. For every slice `S`, the empty and the single-element slice included,
and every behaviour of the randomness source that only requests swaps of two
indices in `[0, len(S))`, collecting the sequence returned by `Shuffle(S)` to
completion gives a permutation of `S`: the same length and the same multiset of
elements. -/
theorem Shuffle_perm {T : Type} (rnd : Nat → List (Nat × Nat)) (S : List T)
    (h : ∀ p ∈ rnd S.length, p.1 < S.length ∧ p.2 < S.length) :
    ∃ out : List T, collect (Shuffle.seq rnd S) = .returned out ∧
      out.Perm S ∧ out.length = S.length ∧ Multiset.ofList out = Multiset.ofList S := by
  obtain ⟨seq', h1, hperm⟩ := applySwaps_perm (rnd S.length) S h
  refine ⟨seq', ?_, hperm, hperm.length_eq, Quotient.sound hperm⟩
  simp [collect, Shuffle.seq, Shuffle_eq rnd S seq' h1, deliver_collect]

/-- C7, at the slice `[1, 2, 3]` with the swaps `(2, 0)` and `(1, 1)`. -/
theorem Shuffle_perm_witness :
    (∀ p ∈ (fun _ => [(2, 0), (1, 1)] : Nat → List (Nat × Nat)) [1, 2, 3].length,
      p.1 < [1, 2, 3].length ∧ p.2 < [1, 2, 3].length) ∧
    ∃ out : List Nat, collect (Shuffle.seq (fun _ => [(2, 0), (1, 1)]) [1, 2, 3]) = .returned out ∧
      out.Perm [1, 2, 3] ∧ out.length = [1, 2, 3].length ∧
      Multiset.ofList out = Multiset.ofList [1, 2, 3] :=
  ⟨by decide, Shuffle_perm (fun _ => [(2, 0), (1, 1)]) [1, 2, 3] (by decide)⟩

/-- C8. For every list of terminating iterator functions `Q1..Qn` whose full
outputs are `L1..Ln`, collecting `ConcatIter(Q1..Qn)` to completion gives
`L1 ++ L2 ++ ... ++ Ln`, so that every source is run to its end before the next
one is started; when every `Qi` is the value iterator of a slice `Ai`, the
result is the list that `Concat(A1..An)` yields. -/
theorem ConcatIter_collect :
    (∀ (T : Type) (Qs : List (Gen T)),
      collect (ConcatIter (Qs.map Gen.run)) = .returned (Qs.map Gen.output).flatten) ∧
    (∀ (T : Type) (As : List (List T)),
      collect (ConcatIter (As.map Values)) = collect (Concat As) ∧
        collect (ConcatIter (As.map Values)) = .returned As.flatten) :=
  ⟨fun _ Qs => collect_ConcatIter_run Qs,
    fun _ As => ⟨(collect_ConcatIter_Values As).trans (collect_Concat As).symm,
      collect_ConcatIter_Values As⟩⟩

/-- C9. Each of the sequence-returning combinators `Concat`, `ConcatIter`,
`Reverse`, `Shuffle`, `Filter` and `Map` honours the stop signal, for every
input and every consumer: once `yield` has answered `false` it is not invoked
again, so the elements delivered are exactly the shortest initial segment of the
combinator's full output that ends with the first element on which `yield`
answered `false` (the full output when it never does), also when the stop
falls in the middle of a source.  For `ConcatIter` the sources are arbitrary
terminating iterator functions, including ones that go on calling after a
stop, and the value iterators of slices; for `Shuffle` the full output is the
one of the same random choices; `Filter` and `Map` are taken with callbacks
free of side effects.  The closing examples stop in the middle of the first
source: `Concat([1,2,3],[7,8,9])` stopped on `2` delivers `1, 2` in two calls,
and `ConcatIter` over a source that ignores the stop delivers only `1`. -/
theorem combinators_stop_on_demand :
    (∀ (T : Type) (seqs : List (List T)), StopsOnDemand (Concat seqs)) ∧
    (∀ (T : Type) (Qs : List (Gen T)), StopsOnDemand (ConcatIter (Qs.map Gen.run))) ∧
    (∀ (T : Type) (As : List (List T)), StopsOnDemand (ConcatIter (As.map Values))) ∧
    (∀ (T : Type) (seqs : List (List T)), StopsOnDemand (Reverse seqs)) ∧
    (∀ (T : Type) (rnd : Nat → List (Nat × Nat)) (seq : List T),
      StopsOnDemand (Shuffle.seq rnd seq)) ∧
    (∀ (T : Type) (seq : List T) (pred : T → Bool), StopsOnDemand (FilterSeq seq pred)) ∧
    (∀ (T : Type) (seq : List T) (f : Nat → T → T), StopsOnDemand (MapSeq seq f)) ∧
    delivered (Concat [[1, 2, 3], [7, 8, 9]]) (fun v (n : Nat) => (v != 2, n + 1)) 0 = [1, 2] ∧
    (Concat [[1, 2, 3], [7, 8, 9]] Nat (fun v n => (v != 2, n + 1)) 0) = .returned 2 ∧
    delivered (ConcatIter [(Gen.call 1 fun _ => Gen.call 2 fun _ => Gen.ret).run, Values [3]])
      (fun v (n : Nat) => (v != 1, n + 1)) 0 = [1] := by
  refine ⟨fun T seqs => ?_, fun T Qs => ?_, fun T As => ?_, fun T seqs => ?_,
    fun T rnd seq => ?_, fun T seq pred => ?_, fun T seq f => ?_, by decide, by decide,
    by decide⟩
  · exact StopsOnDemand_of_deliver seqs.flatten fun σ yield s => by
      simp only [Concat, Concat_loop_eq, Outcome.state]
  · exact StopsOnDemand_of_deliver (Qs.map Gen.output).flatten fun σ yield s =>
      ConcatIter_loop_run_state yield Qs s
  · exact StopsOnDemand_of_deliver As.flatten fun σ yield s => by
      simp only [ConcatIter, ConcatIter_loop_Values, Concat_loop_eq, Outcome.state]
  · exact StopsOnDemand_of_deliver seqs.flatten.reverse fun σ yield s => by
      simp only [Reverse_eq, Outcome.state]
  · exact StopsOnDemand_of_deliver _ fun σ yield s => Shuffle_seq_state rnd seq yield s
  · exact StopsOnDemand_of_deliver (seq.filter pred) fun σ yield s => by
      simp only [FilterSeq_eq, Outcome.state]
  · exact StopsOnDemand_of_deliver (seq.enum.map fun p => (p.1, f p.1 p.2)) fun σ yield s => by
      simp only [MapSeq_eq, Outcome.state]

/-- C10. When the sequence returned by `Shuffle(seq)` has been driven to
completion, with a randomness source that only requests swaps of indices in
`[0, len(seq))`, the caller's backing storage holds a permutation of its
previous content and the elements yielded, in order, are exactly the content of
the storage after the permutation. -/
theorem Shuffle_in_place {T : Type} (rnd : Nat → List (Nat × Nat)) (seq : List T)
    (h : ∀ p ∈ rnd seq.length, p.1 < seq.length ∧ p.2 < seq.length) :
    ∃ storage out : List T,
      Shuffle rnd seq (List T) (fun v a => (true, a ++ [v])) [] = (storage, .returned out) ∧
      storage.Perm seq ∧ out = storage ∧
      ∀ i : Fin storage.length, out[i.val]? = some (storage.get i) := by
  obtain ⟨seq', h1, hperm⟩ := applySwaps_perm (rnd seq.length) seq h
  refine ⟨seq', seq', ?_, hperm, rfl, fun i => List.getElem?_eq_getElem i.isLt⟩
  rw [Shuffle_eq rnd seq seq' h1, deliver_collect, List.nil_append]

/-- C10, at the slice `[1, 2, 3]` with the swaps `(2, 1)` and `(1, 0)`: the
storage and the output are both `[3, 1, 2]`. -/
theorem Shuffle_in_place_witness :
    (∀ p ∈ (fun _ => [(2, 1), (1, 0)] : Nat → List (Nat × Nat)) [1, 2, 3].length,
      p.1 < [1, 2, 3].length ∧ p.2 < [1, 2, 3].length) ∧
    (∃ storage out : List Nat,
      Shuffle (fun _ => [(2, 1), (1, 0)]) [1, 2, 3] (List Nat) (fun v a => (true, a ++ [v])) []
        = (storage, .returned out) ∧
      storage.Perm [1, 2, 3] ∧ out = storage ∧
      ∀ i : Fin storage.length, out[i.val]? = some (storage.get i)) ∧
    Shuffle (fun _ => [(2, 1), (1, 0)]) [1, 2, 3] (List Nat) (fun v a => (true, a ++ [v])) []
      = ([3, 1, 2], .returned [3, 1, 2]) :=
  ⟨by decide, Shuffle_in_place (fun _ => [(2, 1), (1, 0)]) [1, 2, 3] (by decide), by decide⟩

/-- C12. `Filter(S, p)` with a predicate that is true on every element of `S`
yields `S` unchanged (same elements, same order, same length), and with a
predicate that is false on every element of `S` it yields the empty sequence;
the constant predicates are instances. -/
theorem Filter_constant_pred :
    (∀ (T : Type) (S : List T) (p : T → Bool), (∀ v ∈ S, p v = true) →
      collect (FilterSeq S p) = .returned S) ∧
    (∀ (T : Type) (S : List T) (p : T → Bool), (∀ v ∈ S, p v = false) →
      collect (FilterSeq S p) = .returned []) ∧
    (∀ (T : Type) (S : List T),
      collect (FilterSeq S fun _ => true) = .returned S ∧
      collect (FilterSeq S fun _ => false) = .returned []) := by
  refine ⟨fun T S p h => ?_, fun T S p h => ?_, fun T S => ⟨?_, ?_⟩⟩
  · rw [collect_FilterSeq, List.filter_eq_self.mpr h]
  · rw [collect_FilterSeq, List.filter_eq_nil_iff.mpr fun v hv => by simp [h v hv]]
  · rw [collect_FilterSeq, List.filter_eq_self.mpr fun _ _ => rfl]
  · rw [collect_FilterSeq, List.filter_eq_nil_iff.mpr fun _ _ => by simp]

/-- C12, at the slice `[1, 2, 3]` with the predicates `v > 0` (true on every
element) and `v > 5` (false on every element). -/
theorem Filter_constant_pred_witness :
    collect (FilterSeq [1, 2, 3] fun v => decide (v > 0)) = .returned [1, 2, 3] ∧
    collect (FilterSeq [1, 2, 3] fun v => decide (v > 5)) = .returned [] :=
  ⟨Filter_constant_pred.1 Nat [1, 2, 3] (fun v => decide (v > 0)) (by decide),
    Filter_constant_pred.2.1 Nat [1, 2, 3] (fun v => decide (v > 5)) (by decide)⟩

/-- C16. `Reverse` is total and index-safe.  For every input and every
consumer the drive ends by an ordinary return, never by the panic of an access
out of range: the inner countdown started at `len(seq)` and the outer one
started at `len(seqs)` only make accesses within bounds.  No slices at all give
no element, and an empty slice anywhere among the slices contributes no
element.  The last conjunct shows that the check is a real one: the same
inner loop started one position too high does panic. -/
theorem Reverse_total_index_safe :
    (∀ (T σ : Type) (yield : Yield σ T) (seqs : List (List T)) (s : σ),
      ∃ s', Reverse seqs σ yield s = .returned s') ∧
    (∀ (T σ : Type) (yield : Yield σ T) (seq : List T) (s s' : σ),
      Reverse.inner yield seq seq.length s ≠ .panic s') ∧
    (∀ (T : Type), collect (Reverse ([] : List (List T))) = .returned []) ∧
    (∀ (T : Type) (A B : List (List T)),
      collect (Reverse (A ++ [[]] ++ B)) = collect (Reverse (A ++ B))) ∧
    collect (Reverse [[], [1, 2], [], [3]]) = .returned [3, 2, 1] ∧
    Reverse.inner (fun _ s => (true, s)) [1, 2] 3 () = .panic () := by
  refine ⟨fun T σ yield seqs s => ⟨_, Reverse_eq yield seqs s⟩,
    fun T σ yield seq s s' => Reverse_inner_no_panic yield seq seq.length (Nat.le_refl _) s s',
    fun T => rfl, fun T A B => ?_, by decide, by decide⟩
  rw [collect_Reverse, collect_Reverse]
  simp

/-- C18. `Reduce` composes with `Concat` as a fold over an append: for all
slices `A` and `B`, reducer `f` and initial value `init`, the three calls
return, and `Reduce(Concat(A, B), f, init)` is
`Reduce(values of B, f, Reduce(values of A, f, init))`. -/
theorem Reduce_Concat_append :
    ∀ (T : Type) (A B : List T) (f : T → T → T) (init : T),
      ∃ a r : T, Reduce (Values A) f init = some a ∧ Reduce (Values B) f a = some r ∧
        Reduce (Concat [A, B]) f init = some r ∧
        Reduce (Concat [A, B]) f init = Reduce (Values B) f a := by
  intro T A B f init
  refine ⟨A.foldl f init, B.foldl f (A.foldl f init), Reduce_Values A f init,
    Reduce_Values B f _, ?_, ?_⟩
  · rw [Reduce_Concat]; simp
  · rw [Reduce_Concat, Reduce_Values]; simp

/-- C11, as amended.  For every slice `S`, predicate and consumer driving
`Filter(S, pred)`, the trace of the predicate calls is an initial segment
`S[0], ..., S[m-1]` of `S`: the calls are made in sequence order and no element
is evaluated twice.  The trace is all of `S`, one call per element, whenever
the consumer did not signal stop during the drive; when it did, the predicate
is not invoked on the elements behind the one on which the drive stopped.
The traced drive leaves the caller's world as the plain drive does. -/
theorem Filter_pred_calls_segment :
    ∀ (T σ : Type) (S : List T) (filterFn : T → σ → Bool × σ) (yield : Yield σ T) (s : σ),
      (Filter.trace S filterFn yield s).calls <+: S ∧
      ((∀ p ∈ (Filter.trace S filterFn yield s).given, p.2 = true) →
        (Filter.trace S filterFn yield s).calls = S) ∧
      (Filter.trace S filterFn yield s).world = (Filter S filterFn yield s).state := by
  intro T σ S filterFn yield s
  obtain ⟨m, hm, hc, hw, hall, -⟩ := Filter_trace_spec S filterFn yield s
  refine ⟨?_, fun h => ?_, hw⟩
  · rw [hc]; exact List.take_prefix m S
  · rw [hc, hall h, List.take_length]

/-- C11 as amended, at the slice `[1, 2, 3, 4]` with the predicate "is even"
and a consumer that never stops: the predicate is called on `1, 2, 3, 4`. -/
theorem Filter_pred_calls_segment_witness :
    (Filter.trace [1, 2, 3, 4] (fun v => pureFn (v % 2 == 0)) (fun _ s => (true, s)) ()).calls
      = [1, 2, 3, 4] :=
  (Filter_pred_calls_segment Nat Unit [1, 2, 3, 4] (fun v => pureFn (v % 2 == 0))
    (fun _ s => (true, s)) ()).2.1 (by decide)

/-- C11 as stated fails: with the slice `[1, 2, 3]`, a predicate that is always
true and a consumer that signals stop on the first element it receives, the
predicate is invoked on `1` only, not once per element of the slice. -/
theorem Filter_pred_calls_counterexample :
    (Filter.trace [1, 2, 3] (fun _ => pureFn true) (fun _ s => (false, s)) ()).calls = [1] ∧
    (Filter.trace [1, 2, 3] (fun _ => pureFn true) (fun _ s => (false, s)) ()).calls
      ≠ [1, 2, 3] := by
  decide

/-- C19. `Filter` and `Map` call the caller's function lazily.  When the
consumer of `Filter(S, pred)` signals stop on an element, that element sits at
an input position `k` of `S` and the predicate has been invoked exactly on
`S[0], ..., S[k]`, in index order, and on nothing behind.  When the consumer
of `Map(S, f)` signals stop on the pair with index `k`, the transform has been
invoked exactly with `(0, S[0]), ..., (k, S[k])`, in index order.  In every
drive of `Map` the transform calls are an initial segment of the pairs
`(i, S[i])` and carry the same indices as the pairs delivered: one call per
delivered pair. -/
theorem Filter_Map_lazy :
    (∀ (T σ : Type) (S : List T) (filterFn : T → σ → Bool × σ) (yield : Yield σ T) (s : σ)
      (v : T), (Filter.trace S filterFn yield s).given.getLast? = some (v, false) →
        ∃ k, S[k]? = some v ∧ (Filter.trace S filterFn yield s).calls = S.take (k + 1)) ∧
    (∀ (T σ : Type) (S : List T) (mapFn : Nat → T → σ → T × σ) (yield : Yield σ (Nat × T))
      (s : σ) (k : Nat) (r : T),
        (Map.trace S mapFn yield s).given.getLast? = some ((k, r), false) →
        (Map.trace S mapFn yield s).calls = S.enum.take (k + 1)) ∧
    (∀ (T σ : Type) (S : List T) (mapFn : Nat → T → σ → T × σ) (yield : Yield σ (Nat × T))
      (s : σ),
        (Map.trace S mapFn yield s).calls <+: S.enum ∧
        (Map.trace S mapFn yield s).calls.map Prod.fst
          = (Map.trace S mapFn yield s).given.map (fun p => p.1.1) ∧
        (Map.trace S mapFn yield s).calls.length = (Map.trace S mapFn yield s).given.length) := by
  refine ⟨fun T σ S filterFn yield s v h => ?_, fun T σ S mapFn yield s k r h => ?_,
    fun T σ S mapFn yield s => ?_⟩
  · obtain ⟨m, -, hc, -, -, hlast⟩ := Filter_trace_spec S filterFn yield s
    obtain ⟨hpos, hv⟩ := hlast v h
    refine ⟨m - 1, hv, ?_⟩
    rw [hc, Nat.sub_add_cancel hpos]
  · obtain ⟨m, -, hc, -, -, -, hlast⟩ := Map_trace_spec S mapFn yield s
    rw [hc, hlast k r h]
  · obtain ⟨m, -, hc, -, hidx, -, -⟩ := Map_trace_spec S mapFn yield s
    refine ⟨?_, hidx.symm, ?_⟩
    · rw [hc]; exact List.take_prefix m _
    · have := congrArg List.length hidx
      simpa using this.symm

/-- C19, at concrete drives: `Filter([1,2,3,4,5], isEven)` stopped on `4` has
called the predicate on `1, 2, 3, 4`, and `Map([10,20,30], double)` stopped on
the pair with index `1` has called the transform with `(0, 10), (1, 20)`. -/
theorem Filter_Map_lazy_witness :
    (∃ k, [1, 2, 3, 4, 5][k]? = some 4 ∧
      (Filter.trace [1, 2, 3, 4, 5] (fun v => pureFn (v % 2 == 0))
        (fun v s => (v != 4, s)) ()).calls = [1, 2, 3, 4, 5].take (k + 1)) ∧
    (Filter.trace [1, 2, 3, 4, 5] (fun v => pureFn (v % 2 == 0))
        (fun v s => (v != 4, s)) ()).calls = [1, 2, 3, 4] ∧
    (Map.trace [10, 20, 30] (fun _ v => pureFn (v * 2)) (fun p s => (p.1 != 1, s)) ()).calls
      = [10, 20, 30].enum.take (1 + 1) ∧
    (Map.trace [10, 20, 30] (fun _ v => pureFn (v * 2)) (fun p s => (p.1 != 1, s)) ()).calls
      = [(0, 10), (1, 20)] :=
  ⟨Filter_Map_lazy.1 Nat Unit [1, 2, 3, 4, 5] (fun v => pureFn (v % 2 == 0))
      (fun v s => (v != 4, s)) () 4 (by decide),
    by decide,
    Filter_Map_lazy.2.1 Nat Unit [10, 20, 30] (fun _ v => pureFn (v * 2))
      (fun p s => (p.1 != 1, s)) () 1 40 (by decide),
    by decide⟩

/-- C13, as amended.  `Reverse` reverses the relative order inside every
source: for every list of slices and any two elements at positions `p < q` of
the same slice `Ai`, the element from position `q` is yielded before the
element from position `p`; the sources are taken in reverse order, every
element of a later slice being yielded before every element of an earlier one.
The element at position `p` of slice `i` is the yield number
`yieldIndex seqs i p`, and the whole order is the reverse of the concatenation
of the slices. -/
theorem Reverse_source_order :
    ∀ (T : Type) (seqs : List (List T)),
      ∃ out : List T, collect (Reverse seqs) = .returned out ∧ out = seqs.flatten.reverse ∧
        (∀ i seq p, seqs[i]? = some seq → p < seq.length →
          out[yieldIndex seqs i p]? = seq[p]?) ∧
        (∀ i seq p q, seqs[i]? = some seq → p < q → q < seq.length →
          yieldIndex seqs i q < yieldIndex seqs i p) ∧
        (∀ i j seq seq' p q, seqs[i]? = some seq → seqs[j]? = some seq' → i < j →
          p < seq.length → q < seq'.length → yieldIndex seqs j q < yieldIndex seqs i p) ∧
        (∀ (i : Nat) (seq : List T) (p q : Nat) (x y : T), seqs[i]? = some seq → p < q →
          seq[p]? = some x → seq[q]? = some y → YieldedBefore out y x) := by
  intro T seqs
  refine ⟨seqs.flatten.reverse, collect_Reverse seqs, rfl,
    fun i seq p h hp => Reverse_yieldIndex seqs i p seq h hp,
    fun i seq p q h hpq hq => yieldIndex_lt_of_lt seqs i p q seq h hpq hq,
    fun i j seq seq' p q hi hj hij hp hq =>
      yieldIndex_lt_of_source_lt seqs i j p q seq seq' hi hj hij hp hq,
    fun i seq p q x y h hpq hx hy => ?_⟩
  have hq : q < seq.length := (List.getElem?_eq_some_iff.mp hy).1
  refine ⟨yieldIndex seqs i q, yieldIndex seqs i p, yieldIndex_lt_of_lt seqs i p q seq h hpq hq,
    ?_, ?_⟩
  · rw [Reverse_yieldIndex seqs i q seq h hq, hy]
  · rw [Reverse_yieldIndex seqs i p seq h (Nat.lt_trans hpq hq), hx]

/-- C13 as amended, at `Reverse([1,2,3],[7,8,9])`: the element `3` of position
`2` of the first slice is yielded before the element `1` of position `0`. -/
theorem Reverse_source_order_witness :
    ∃ out : List Nat, collect (Reverse [[1, 2, 3], [7, 8, 9]]) = .returned out ∧
      YieldedBefore out 3 1 := by
  obtain ⟨out, h1, -, -, -, -, h5⟩ := Reverse_source_order Nat [[1, 2, 3], [7, 8, 9]]
  exact ⟨out, h1, h5 0 [1, 2, 3] 0 2 1 3 rfl (by decide) rfl rfl⟩

/-- C13 as stated fails: `Reverse([1, 2])` yields `2, 1`, so the element `1`
from position `0` is not yielded before the element `2` from position `1` of
the same slice; it is yielded after it. -/
theorem Reverse_source_order_counterexample :
    ∃ out : List Nat, collect (Reverse [[1, 2]]) = .returned out ∧
      ¬ YieldedBefore out 1 2 ∧ YieldedBefore out 2 1 := by
  refine ⟨[2, 1], by decide, ?_, ⟨0, 1, by decide, rfl, rfl⟩⟩
  rintro ⟨a, b, hab, ha, hb⟩
  rcases a with _ | _ | a
  · simp at ha
  · rcases b with _ | _ | b
    · omega
    · omega
    · simp at hb
  · simp at ha

/-- C17. The mutation made by `Shuffle` is deferred to the drive and is
complete before anything is yielded.  The call `Shuffle(seq)` itself leaves the
backing storage as it was.  With a randomness source that only requests swaps
of indices in `[0, len(seq))`, a drive of the returned sequence that starts
from this storage leaves the same storage, a full permutation of the previous
content, whatever the consumer does: the storage does not depend on how many
elements are consumed, and the elements delivered are an initial segment of
that storage.  In particular a consumer that stops at the first element leaves
the storage fully permuted and has received exactly the post-shuffle `seq[0]`.
Every further drive of the same sequence permutes in the same way the content
it finds.  The storage is changed by nothing but the swaps requested during a
drive: a drive without swaps leaves it as it was. -/
theorem Shuffle_all_or_nothing {T : Type} (rnd : Nat → List (Nat × Nat)) (seq : List T)
    (h : ∀ p ∈ rnd seq.length, p.1 < seq.length ∧ p.2 < seq.length) :
    (Shuffle.call seq).1 = seq ∧
    ∃ storage : List T, storage.Perm seq ∧
      (∀ (σ : Type) (yield : Yield σ T) (s : σ),
        (Shuffle.call seq).2 rnd (Shuffle.call seq).1 σ yield s
          = (storage, .returned (deliver yield storage s))) ∧
      (∀ (σ : Type) (yield : Yield σ T) (s : σ),
        Shuffle rnd seq σ yield s = (storage, .returned (deliver yield storage s)) ∧
        delivered (Shuffle.seq rnd seq) yield s = handed yield storage s) ∧
      (∀ (σ : Type) (s : σ),
        ((Shuffle.call seq).2 rnd (Shuffle.call seq).1 σ (fun _ w => (false, w)) s).1 = storage ∧
        (Shuffle rnd seq σ (fun _ w => (false, w)) s).1 = storage ∧
        delivered (Shuffle.seq rnd seq) (fun _ (w : σ) => (false, w)) s = storage.take 1) ∧
      (∀ rnd' : Nat → List (Nat × Nat),
        (∀ p ∈ rnd' storage.length, p.1 < storage.length ∧ p.2 < storage.length) →
        ∃ storage' : List T, storage'.Perm storage ∧
          ∀ (σ : Type) (yield : Yield σ T) (s : σ),
            (Shuffle.call seq).2 rnd' storage σ yield s
              = (storage', .returned (deliver yield storage' s))) ∧
      (∀ (σ : Type) (yield : Yield σ T) (s : σ),
        (Shuffle (fun _ => []) seq σ yield s).1 = seq ∧
        ((Shuffle.call seq).2 (fun _ => []) (Shuffle.call seq).1 σ yield s).1 = seq) := by
  obtain ⟨seq', h1, hperm⟩ := applySwaps_perm (rnd seq.length) seq h
  refine ⟨rfl, seq', hperm, fun σ yield s => Shuffle_eq rnd seq seq' h1 yield s,
    fun σ yield s => ⟨Shuffle_eq rnd seq seq' h1 yield s,
      delivered_Shuffle rnd seq seq' h1 yield s⟩,
    fun σ s => ⟨?_, ?_, ?_⟩, fun rnd' h' => ?_, fun σ yield s => ⟨?_, ?_⟩⟩
  · exact congrArg Prod.fst (Shuffle_eq rnd seq seq' h1 _ s)
  · rw [Shuffle_eq rnd seq seq' h1]
  · rw [delivered_Shuffle rnd seq seq' h1, handed_stop_at_once]
  · obtain ⟨seq'', h2, hperm2⟩ := applySwaps_perm (rnd' seq'.length) seq' h'
    exact ⟨seq'', hperm2, fun σ yield s => Shuffle_eq rnd' seq' seq'' h2 yield s⟩
  · rw [Shuffle_eq (fun _ => []) seq seq rfl]
  · exact congrArg Prod.fst (Shuffle_eq (fun _ => []) seq seq rfl yield s)

/-- C17, at the slice `[1, 2, 3]` with the swaps `(2, 0)` and `(1, 0)`: the
call leaves `[1, 2, 3]`; a drive by a consumer that stops at once leaves the
storage `[2, 3, 1]` and delivers `2`; a second drive with the same swaps finds
`[2, 3, 1]` and leaves `[3, 1, 2]`. -/
theorem Shuffle_all_or_nothing_witness :
    (∀ p ∈ (fun _ => [(2, 0), (1, 0)] : Nat → List (Nat × Nat)) [1, 2, 3].length,
      p.1 < [1, 2, 3].length ∧ p.2 < [1, 2, 3].length) ∧
    ((Shuffle.call [1, 2, 3]).1 = [1, 2, 3] ∧
    ∃ storage : List Nat, storage.Perm [1, 2, 3] ∧
      (∀ (σ : Type) (yield : Yield σ Nat) (s : σ),
        (Shuffle.call [1, 2, 3]).2 (fun _ => [(2, 0), (1, 0)]) (Shuffle.call [1, 2, 3]).1 σ yield s
          = (storage, .returned (deliver yield storage s))) ∧
      (∀ (σ : Type) (yield : Yield σ Nat) (s : σ),
        Shuffle (fun _ => [(2, 0), (1, 0)]) [1, 2, 3] σ yield s
          = (storage, .returned (deliver yield storage s)) ∧
        delivered (Shuffle.seq (fun _ => [(2, 0), (1, 0)]) [1, 2, 3]) yield s
          = handed yield storage s) ∧
      (∀ (σ : Type) (s : σ),
        ((Shuffle.call [1, 2, 3]).2 (fun _ => [(2, 0), (1, 0)]) (Shuffle.call [1, 2, 3]).1 σ
          (fun _ w => (false, w)) s).1 = storage ∧
        (Shuffle (fun _ => [(2, 0), (1, 0)]) [1, 2, 3] σ (fun _ w => (false, w)) s).1 = storage ∧
        delivered (Shuffle.seq (fun _ => [(2, 0), (1, 0)]) [1, 2, 3])
          (fun _ (w : σ) => (false, w)) s = storage.take 1) ∧
      (∀ rnd' : Nat → List (Nat × Nat),
        (∀ p ∈ rnd' storage.length, p.1 < storage.length ∧ p.2 < storage.length) →
        ∃ storage' : List Nat, storage'.Perm storage ∧
          ∀ (σ : Type) (yield : Yield σ Nat) (s : σ),
            (Shuffle.call [1, 2, 3]).2 rnd' storage σ yield s
              = (storage', .returned (deliver yield storage' s))) ∧
      (∀ (σ : Type) (yield : Yield σ Nat) (s : σ),
        (Shuffle (fun _ => []) [1, 2, 3] σ yield s).1 = [1, 2, 3] ∧
        ((Shuffle.call [1, 2, 3]).2 (fun _ => []) (Shuffle.call [1, 2, 3]).1 σ yield s).1
          = [1, 2, 3])) ∧
    ((Shuffle.call [1, 2, 3]).2 (fun _ => [(2, 0), (1, 0)]) (Shuffle.call [1, 2, 3]).1 Unit
      (fun _ w => (false, w)) ()).1 = [2, 3, 1] ∧
    delivered (Shuffle.seq (fun _ => [(2, 0), (1, 0)]) [1, 2, 3])
      (fun _ (w : Unit) => (false, w)) () = [2] ∧
    ((Shuffle.call [1, 2, 3]).2 (fun _ => [(2, 0), (1, 0)]) [2, 3, 1] Unit
      (fun _ w => (false, w)) ()).1 = [3, 1, 2] :=
  ⟨by decide, Shuffle_all_or_nothing (fun _ => [(2, 0), (1, 0)]) [1, 2, 3] (by decide),
    by decide, by decide, by decide⟩

/-- C14. `Shuffle` is unbiased when `rand.Shuffle` is the Fisher-Yates shuffle
with uniform draws.  For a slice `S` of `n` pairwise distinct elements there
are `n!` choice vectors, every choice vector makes `Shuffle` yield a
permutation of `S`, and every ordering `out` of `S` is yielded for exactly one
choice vector: the map from choice vectors to output orderings is a bijection.
Hence, the choice vectors being equally likely, each ordering has probability
`1 / n!`. -/
theorem Shuffle_fisherYates_unbiased {T : Type} [DecidableEq T] (S : List T) (hS : S.Nodup)
    (out : List T) (hout : out.Perm S) :
    Fintype.card (Choices S.length) = S.length.factorial ∧
    (∀ c : Choices S.length, ∃ o : List T,
      collect (Shuffle.seq (fisherYates c.toFun) S) = .returned o ∧ o.Perm S) ∧
    (∃! c : Choices S.length,
      collect (Shuffle.seq (fisherYates c.toFun) S) = .returned out) ∧
    ((Finset.filter (fun c : Choices S.length =>
        collect (Shuffle.seq (fisherYates c.toFun) S) = .returned out) Finset.univ).card : ℚ)
      / (Fintype.card (Choices S.length) : ℚ) = 1 / (S.length.factorial : ℚ) := by
  obtain ⟨c0, hc0⟩ := Shuffle_fisherYates_surjective S hS out hout
  have huniq : ∀ c : Choices S.length,
      collect (Shuffle.seq (fisherYates c.toFun) S) = .returned out → c = c0 :=
    fun c hc => Shuffle_fisherYates_injective S hS c c0 (hc.trans hc0.symm)
  refine ⟨Choices_card S.length, fun c => ?_, ⟨c0, hc0, huniq⟩, ?_⟩
  · obtain ⟨o, -, hperm, h2⟩ := collect_Shuffle_fisherYates c S
    exact ⟨o, h2, hperm⟩
  · have hfilter : Finset.filter (fun c : Choices S.length =>
        collect (Shuffle.seq (fisherYates c.toFun) S) = .returned out) Finset.univ = {c0} := by
      ext c
      simp only [Finset.mem_filter, Finset.mem_univ, true_and, Finset.mem_singleton]
      exact ⟨huniq c, fun h => h ▸ hc0⟩
    rw [hfilter, Finset.card_singleton, Choices_card]
    simp

/-- C14, at the slice `[1, 2, 3]` and its ordering `[3, 1, 2]`; with every draw
equal to `0` the schedule is `swap(2, 0), swap(1, 0)` and the output `2, 3, 1`. -/
theorem Shuffle_fisherYates_unbiased_witness :
    [1, 2, 3].Nodup ∧ [3, 1, 2].Perm [1, 2, 3] ∧
    (Fintype.card (Choices [1, 2, 3].length) = [1, 2, 3].length.factorial ∧
    (∀ c : Choices [1, 2, 3].length, ∃ o : List Nat,
      collect (Shuffle.seq (fisherYates c.toFun) [1, 2, 3]) = .returned o ∧ o.Perm [1, 2, 3]) ∧
    (∃! c : Choices [1, 2, 3].length,
      collect (Shuffle.seq (fisherYates c.toFun) [1, 2, 3]) = .returned [3, 1, 2]) ∧
    ((Finset.filter (fun c : Choices [1, 2, 3].length =>
        collect (Shuffle.seq (fisherYates c.toFun) [1, 2, 3]) = .returned [3, 1, 2])
        Finset.univ).card : ℚ)
      / (Fintype.card (Choices [1, 2, 3].length) : ℚ) = 1 / ([1, 2, 3].length.factorial : ℚ)) ∧
    fisherYates (fun _ => 0) 3 = [(2, 0), (1, 0)] ∧
    collect (Shuffle.seq (fisherYates fun _ => 0) [1, 2, 3]) = .returned [2, 3, 1] :=
  ⟨by decide, by decide, Shuffle_fisherYates_unbiased [1, 2, 3] (by decide) [3, 1, 2] (by decide),
    by decide, by decide⟩

/-- C15. Let `ConcatIter` be given terminating sources `pre`, then a source
`Q` that never returns of its own, then any later sources `post`.  The drive
goes on exactly as if the later sources were absent, for every consumer and
every number of steps: no later source is ever started and none of its elements
is ever delivered.  With a consumer that never signals stop the drive is
still going on after any number of steps.  With a consumer that signals stop
within the first `k` elements of the concatenation of `pre` and `Q`, the drive
ends after finitely many steps, the consumer's world is the one reached by
handing it those elements up to its stop, and the elements delivered are
exactly these: the consumer `stopOn k`, which signals stop on the `k`-th
element it receives, has received exactly the first `k` elements.  On terminating
sources alone the drive bounded by steps ends as the drive of `ConcatIter`
does. -/
theorem ConcatIter_infinite_source {T : Type} (pre : List (Gen T)) (Q : Source T)
    (hQ : Q.NeverReturns) (post : List (Source T)) :
    (∀ (σ : Type) (yield : Yield σ T) (fuel : Nat) (s : σ),
      ConcatIterF (pre.map Source.ofGen ++ Q :: post) σ yield fuel s
        = ConcatIterF (pre.map Source.ofGen ++ [Q]) σ yield fuel s) ∧
    (∀ (σ : Type) (yield : Yield σ T), (∀ v s, (yield v s).1 = true) →
      ∀ (fuel : Nat) (s : σ),
        ∃ s', ConcatIterF (pre.map Source.ofGen ++ Q :: post) σ yield fuel s = .running s') ∧
    (∀ (σ : Type) (yield : Yield σ T) (s : σ) (k : Nat),
      (rangeSlice yield (firstOutputs pre Q k) s).1 = false →
        ∃ m, ∀ extra, ∃ o,
          ConcatIterF (pre.map Source.ofGen ++ Q :: post) σ yield (extra + m) s = .finished o ∧
          o.state = deliver yield (firstOutputs pre Q k) s) ∧
    (∀ (σ : Type) (yield : Yield σ T) (s : σ) (k : Nat),
      (rangeSlice yield (firstOutputs pre Q k) s).1 = false →
        ∃ m, ∀ extra,
          deliveredF (pre.map Source.ofGen ++ Q :: post) yield (extra + m) s
            = handed yield (firstOutputs pre Q k) s) ∧
    (∀ k, 0 < k → ∃ m, ∀ extra,
      deliveredF (pre.map Source.ofGen ++ Q :: post) (stopOn k) (extra + m) 0
        = firstOutputs pre Q k) ∧
    (∀ k, (firstOutputs pre Q k).length = k) ∧
    (∀ (σ : Type) (yield : Yield σ T) (s : σ) (gs : List (Gen T)),
      ∃ m, ∀ extra,
        ConcatIterF (gs.map Source.ofGen) σ yield (extra + m) s
          = .finished (ConcatIter (gs.map Gen.run) σ yield s)) :=
  ⟨fun _ yield fuel s => ConcatIterF_loop_ignore_later yield _ Q hQ post fuel s,
    fun _ yield hy fuel s => ConcatIterF_loop_blocked yield hy _ Q hQ post fuel s,
    fun _ yield s k h => ConcatIterF_loop_stop yield pre Q post s k h,
    fun _ yield s k h => deliveredF_stop yield pre Q post s k h,
    fun k hk => deliveredF_stopOn pre Q hQ post k hk,
    fun k => firstOutputs_length pre Q hQ k,
    fun _ yield s gs => ConcatIterF_loop_ofGen yield gs s⟩

/-- C15, at `ConcatIter` of the terminating source yielding `1, 2`, the
unbounded source `10, 11, 12, ...` and a later unbounded source of `99`s,
with a consumer that signals stop on the fifth element it receives: after `10`
steps the drive has ended and the consumer has received `1, 2, 10, 11, 12`. -/
theorem ConcatIter_infinite_source_witness :
    (Source.ofStream fun i => 10 + i).NeverReturns ∧
    (∃ m, ∀ extra,
      deliveredF
          ([Gen.call 1 fun _ => Gen.call 2 fun _ => Gen.ret].map Source.ofGen
            ++ (Source.ofStream fun i => 10 + i) :: [Source.ofStream fun _ => 99])
          (fun _ (n : Nat) => (decide (n + 1 < 5), n + 1)) (extra + m) 0
        = handed (fun _ (n : Nat) => (decide (n + 1 < 5), n + 1))
            (firstOutputs [Gen.call 1 fun _ => Gen.call 2 fun _ => Gen.ret]
              (Source.ofStream fun i => 10 + i) 5) 0) ∧
    handed (fun _ (n : Nat) => (decide (n + 1 < 5), n + 1))
        (firstOutputs [Gen.call 1 fun _ => Gen.call 2 fun _ => Gen.ret]
          (Source.ofStream fun i => 10 + i) 5) 0 = [1, 2, 10, 11, 12] ∧
    deliveredF
        ([Gen.call 1 fun _ => Gen.call 2 fun _ => Gen.ret].map Source.ofGen
          ++ (Source.ofStream fun i => 10 + i) :: [Source.ofStream fun _ => 99])
        (fun _ (n : Nat) => (decide (n + 1 < 5), n + 1)) 10 0 = [1, 2, 10, 11, 12] :=
  ⟨Source_ofStream_neverReturns _,
    (ConcatIter_infinite_source [Gen.call 1 fun _ => Gen.call 2 fun _ => Gen.ret]
      (Source.ofStream fun i => 10 + i) (Source_ofStream_neverReturns _)
      [Source.ofStream fun _ => 99]).2.2.2.1 Nat
      (fun _ (n : Nat) => (decide (n + 1 < 5), n + 1)) 0 5 (by decide),
    by decide, by decide⟩

end Itertools
